import Mathlib

/-!
Verification of the decision-policy layer of the REL301m JSS solution.

This file shallowly embeds, in Lean 4, the scheduling agents of the
repository:

* `ControllerJSSAgent` (src/controller_agent.py): the controller-constrained
  scheduler, its decision function `__call__`, its helper methods
  (`_load_controller` is abstracted as an already-parsed table,
  `_get_earliest_available_person`, `_find_best_person_machine_combination`,
  `_cleanup_expired_assignments`, `_get_resource_utilization`,
  `_calculate_job_score_enhanced`) and its episode driver `run_episode`.
* `HybridPriorityScoringAgent` and `AdaptiveLookAheadAgent`
  (src/comparison_framework/agents.py) together with the six scoring
  heuristics.

Modelling conventions:

* Python floats are modelled as exact rationals (`ℚ`); all the comparisons
  and arithmetic used by the agents are order/field operations, so the
  embedding is faithful on every execution in which float rounding does not
  flip a comparison.
* Python dicts are modelled as association lists in insertion order
  (`dictLookup` / `dictInsert` / value update keeps the position of an
  existing key, a new key is appended, deletion filters — exactly the
  observable behaviour of `dict` iteration in CPython 3.7+).
* A Python division is partial: dividing by zero raises.  Where the source
  guards the divisor (every division of `_calculate_job_score_enhanced`)
  the embedding is a total function; the unguarded divisions of the
  heuristic library in agents.py are modelled with `Option`-valued
  functions (`none` = the `ZeroDivisionError` / non-finite float path).
* `np.random.random()` is modelled as an explicit draw `r : ℚ` passed to
  the decision function: the draw is the only source of nondeterminism.
* Exceptions that escape a method (`ValueError` for a machine with no
  qualified person) are modelled with `Except Nat`, the payload being the
  machine id carried by the diagnostic message.
-/

namespace JSSVerif

/-- First-maximum selection: Python's `max(xs, key=f)` returns the first
element attaining the maximum (later elements replace the current best only
on a strictly greater key). `d` is returned on the empty list, which the
source never queries. -/
def maxByD (f : α → ℚ) (l : List α) (d : α) : α :=
  match l with
  | [] => d
  | x :: xs => xs.foldl (fun b y => if f y > f b then y else b) x

/-- First-minimum selection: Python's `min(xs, key=f)`. -/
def minByD (f : α → ℚ) (l : List α) (d : α) : α :=
  match l with
  | [] => d
  | x :: xs => xs.foldl (fun b y => if f y < f b then y else b) x

theorem foldl_max_mem (f : α → ℚ) (xs : List α) (x : α) :
    xs.foldl (fun b y => if f y > f b then y else b) x = x ∨
      xs.foldl (fun b y => if f y > f b then y else b) x ∈ xs := by
  induction xs generalizing x with
  | nil => simp
  | cons z zs ih =>
    simp only [List.foldl_cons]
    rcases ih (if f z > f x then z else x) with h | h
    · rw [h]
      split
      · right; simp
      · left; rfl
    · right; simp [h]

theorem maxByD_mem (f : α → ℚ) (l : List α) (d : α) (h : l ≠ []) :
    maxByD f l d ∈ l := by
  match l with
  | [] => exact absurd rfl h
  | x :: xs =>
    rcases foldl_max_mem f xs x with h1 | h1
    · simp [maxByD, h1]
    · simp [maxByD]
      right
      exact h1

theorem foldl_max_le (f : α → ℚ) (xs : List α) (x : α) :
    f x ≤ f (xs.foldl (fun b y => if f y > f b then y else b) x) ∧
      ∀ y ∈ xs, f y ≤ f (xs.foldl (fun b y => if f y > f b then y else b) x) := by
  induction xs generalizing x with
  | nil => simp
  | cons z zs ih =>
    simp only [List.foldl_cons]
    obtain ⟨h1, h2⟩ := ih (if f z > f x then z else x)
    constructor
    · refine le_trans ?_ h1
      split <;> [exact le_of_lt (by assumption); exact le_rfl]
    · intro y hy
      rcases List.mem_cons.mp hy with rfl | hy
      · refine le_trans ?_ h1
        split <;> [exact le_rfl; exact le_of_not_lt (by assumption)]
      · exact h2 y hy

theorem maxByD_is_max (f : α → ℚ) (l : List α) (d : α) :
    ∀ y ∈ l, f y ≤ f (maxByD f l d) := by
  match l with
  | [] => simp
  | x :: xs =>
    intro y hy
    obtain ⟨h1, h2⟩ := foldl_max_le f xs x
    rcases List.mem_cons.mp hy with rfl | hy
    · exact h1
    · exact h2 y hy

theorem foldl_min_mem (f : α → ℚ) (xs : List α) (x : α) :
    xs.foldl (fun b y => if f y < f b then y else b) x = x ∨
      xs.foldl (fun b y => if f y < f b then y else b) x ∈ xs := by
  induction xs generalizing x with
  | nil => simp
  | cons z zs ih =>
    simp only [List.foldl_cons]
    rcases ih (if f z < f x then z else x) with h | h
    · rw [h]
      split
      · right; simp
      · left; rfl
    · right; simp [h]

theorem minByD_mem (f : α → ℚ) (l : List α) (d : α) (h : l ≠ []) :
    minByD f l d ∈ l := by
  match l with
  | [] => exact absurd rfl h
  | x :: xs =>
    rcases foldl_min_mem f xs x with h1 | h1
    · simp [minByD, h1]
    · simp [minByD]
      right
      exact h1

/-- Lookup in an insertion-ordered dict (first entry with the key). -/
def dictLookup (d : List (Nat × α)) (k : Nat) : Option α :=
  (d.find? (fun p => p.1 == k)).map (·.2)

/-- `d[k] = v` on a Python dict: update in place if the key exists,
append otherwise. -/
def dictInsert (d : List (Nat × α)) (k : Nat) (v : α) : List (Nat × α) :=
  if (d.find? (fun p => p.1 == k)).isSome then
    d.map (fun p => if p.1 == k then (k, v) else p)
  else d ++ [(k, v)]

/-- `del d[k]` on a Python dict. -/
def dictErase (d : List (Nat × α)) (k : Nat) : List (Nat × α) :=
  d.filter (fun p => ¬ p.1 = k)

theorem dictLookup_append_right (d : List (Nat × α)) (k : Nat) (v : α)
    (h : d.find? (fun p => p.1 == k) = none) :
    dictLookup (d ++ [(k, v)]) k = some v := by
  unfold dictLookup
  rw [List.find?_append, h]
  simp

theorem dictLookup_map_update (d : List (Nat × α)) (k : Nat) (v : α)
    (h : (d.find? (fun p => p.1 == k)).isSome) :
    dictLookup (d.map (fun p => if p.1 == k then (k, v) else p)) k = some v := by
  induction d with
  | nil => simp at h
  | cons p d ih =>
    by_cases hk : p.1 = k
    · have hif : (if (p.1 == k) = true then (k, v) else p) = (k, v) := by simp [hk]
      simp only [dictLookup, List.map_cons, hif, List.find?_cons]
      simp
    · have hpk : (p.1 == k) = false := by simp [hk]
      simp only [List.find?_cons, hpk] at h
      have hif : (if (p.1 == k) = true then (k, v) else p) = p := by simp [hk]
      have hrec := ih h
      simp only [dictLookup, List.map_cons, hif] at hrec ⊢
      rw [List.find?_cons]
      simp only [hpk]
      exact hrec

theorem dictLookup_dictInsert_self (d : List (Nat × α)) (k : Nat) (v : α) :
    dictLookup (dictInsert d k v) k = some v := by
  unfold dictInsert
  split
  · exact dictLookup_map_update d k v (by assumption)
  · rename_i hnone
    exact dictLookup_append_right d k v (Option.not_isSome_iff_eq_none.mp hnone)

/-- The key list of an association-list dict. -/
def dictKeys (d : List (Nat × α)) : List Nat := d.map (·.1)

theorem dictKeys_dictInsert_nodup (d : List (Nat × α)) (k : Nat) (v : α)
    (h : (dictKeys d).Nodup) : (dictKeys (dictInsert d k v)).Nodup := by
  unfold dictInsert
  split
  · have : dictKeys (d.map (fun p => if p.1 == k then (k, v) else p)) = dictKeys d := by
      unfold dictKeys
      rw [List.map_map]
      congr 1
      funext p
      by_cases hk : p.1 = k <;> simp [hk]
    rw [this]; exact h
  · rename_i hnone
    have hk : k ∉ dictKeys d := by
      intro hmem
      unfold dictKeys at hmem
      obtain ⟨p, hp, hpk⟩ := List.mem_map.mp hmem
      have := List.find?_eq_none.mp (Option.not_isSome_iff_eq_none.mp hnone) p hp
      simp [hpk] at this
    unfold dictKeys
    rw [List.map_append]
    simp only [List.map_cons, List.map_nil]
    rw [List.nodup_append]
    refine ⟨h, List.nodup_singleton k, ?_⟩
    intro a ha hb
    simp only [List.mem_singleton] at hb
    subst hb
    exact hk ha

theorem dictKeys_filter_nodup (d : List (Nat × α)) (q : Nat × α → Bool)
    (h : (dictKeys d).Nodup) : (dictKeys (d.filter q)).Nodup := by
  unfold dictKeys at *
  induction d with
  | nil => simp
  | cons p d ih =>
    simp only [List.map_cons, List.nodup_cons] at h
    rw [List.filter_cons]
    split
    · simp only [List.map_cons, List.nodup_cons]
      refine ⟨fun hmem => h.1 ?_, ih h.2⟩
      obtain ⟨x, hx, hxk⟩ := List.mem_map.mp hmem
      exact List.mem_map.mpr ⟨x, List.mem_of_mem_filter hx, hxk⟩
    · exact ih h.2

/-! ## Environment snapshot (the readable fields of the JSS simulator) -/

/-- The readable state of the external `jss-v1` environment at one decision
point, as consumed by the agents: counts, the per-job (machine, duration)
operation lists (`instance_matrix`), the per-job next-operation index
(`todo_time_step_job`), machine clocks, the normalizer `max_time_op`, the
simulation clock and the legality mask.  `needed_machine_jobs` is the
environment's cached next-machine array; `action_mask` doubles as
`env.get_legal_actions()` (the environment contract makes the observation
mask and the legality query agree). -/
structure Env where
  jobs : Nat
  machines : Nat
  instance_matrix : List (List (Nat × ℚ))
  todo_time_step_job : List Nat
  needed_machine_jobs : List Nat
  time_until_available_machine : List ℚ
  max_time_op : ℚ
  current_time_step : ℚ
  action_mask : List Bool
  deriving Repr, DecidableEq

def legalAt (env : Env) (i : Nat) : Bool := env.action_mask.getD i false

def todoAt (env : Env) (i : Nat) : Nat := env.todo_time_step_job.getD i 0

def instOp (env : Env) (i op : Nat) : Nat × ℚ :=
  (env.instance_matrix.getD i []).getD op (0, 0)

def numOps (env : Env) (i : Nat) : Nat := (env.instance_matrix.getD i []).length

def machineAvail (env : Env) (m : Nat) : ℚ :=
  env.time_until_available_machine.getD m 0

def neededAt (env : Env) (j : Nat) : Nat := env.needed_machine_jobs.getD j 0

/-- The machine required by job `i`'s next operation. -/
def nextMachine (env : Env) (i : Nat) : Nat := (instOp env i (todoAt env i)).1

/-- `legal_actions[i] and todo[i] < machines and todo[i] < len(instance[i])`,
the per-job guard of the controller agent's candidate loop. -/
def legalIncomplete (env : Env) (i : Nat) : Bool :=
  legalAt env i && decide (todoAt env i < env.machines)
    && decide (todoAt env i < numOps env i)

/-! ## Controller agent state -/

/-- One entry of `self.people_assignments`:
`{machine_id, end_time, job_id}`. -/
structure Assignment where
  machine_id : Nat
  end_time : ℚ
  job_id : Nat
  deriving Repr, DecidableEq

/-- The per-episode mutable state of `ControllerJSSAgent`: the parsed
controller table (person id → allowed machines, in file order), the
workforce size, the assignment table, and the anti-stall counters. -/
structure AgentState where
  controller : List (Nat × List Nat)
  num_people : Nat
  people_assignments : List (Nat × Assignment)
  last_action_time : ℚ
  consecutive_no_ops : Nat
  max_consecutive_no_ops : Nat
  deriving Repr, DecidableEq

/-- One entry of the decision loop's `job_info` dict. -/
structure JobInfo where
  person_id : Nat
  machine_id : Nat
  start_time : ℚ
  end_time : ℚ
  current_op : Nat
  deriving Repr, DecidableEq, Inhabited

/-- `[pid for pid, machines in self.controller.items() if machine_id in machines]`. -/
def qualifiedIds (controller : List (Nat × List Nat)) (machine_id : Nat) : List Nat :=
  (controller.filter (fun pm => machine_id ∈ pm.2)).map (·.1)

/-- The `qualified_people` list of `_get_earliest_available_person`: every
qualified person paired with `current_time` (unassigned) or
`max(current_time, end_time)` (assigned), in controller-table order. -/
def qualifiedAvail (st : AgentState) (machine_id : Nat) (current_time : ℚ) :
    List (Nat × ℚ) :=
  st.controller.filterMap (fun pm =>
    if machine_id ∈ pm.2 then
      some (pm.1,
        match dictLookup st.people_assignments pm.1 with
        | none => current_time
        | some a => max current_time a.end_time)
    else none)

/-- `_get_earliest_available_person`: the first person with minimal
availability is chosen.  `none` models the `ValueError` raised when no one
is qualified. -/
def getEarliestAvailablePerson (st : AgentState) (machine_id : Nat)
    (current_time : ℚ) : Option (Nat × ℚ) :=
  match qualifiedAvail st machine_id current_time with
  | [] => none
  | x :: xs => some (minByD (fun p => p.2) (x :: xs) x)

/-- `_find_best_person_machine_combination`: earliest available person for
the job's next machine; start when both person and machine are free;
end after the operation's duration. -/
def findBestCombination (env : Env) (st : AgentState) (job_idx : Nat)
    (current_time : ℚ) : Option JobInfo :=
  let current_op := todoAt env job_idx
  let machine_id := (instOp env job_idx current_op).1
  let proc_time := (instOp env job_idx current_op).2
  match getEarliestAvailablePerson st machine_id current_time with
  | none => none
  | some (person_id, person_available_time) =>
    let machine_ready_time := current_time + machineAvail env machine_id
    let start_time := max person_available_time machine_ready_time
    some ⟨person_id, machine_id, start_time, start_time + proc_time, current_op⟩

/-- `_cleanup_expired_assignments`: drop every assignment with
`end_time <= current_time`, keeping the rest in order. -/
def cleanupExpired (assignments : List (Nat × Assignment)) (current_time : ℚ) :
    List (Nat × Assignment) :=
  assignments.filter (fun p => decide (current_time < p.2.end_time))

/-- The state after the entry bookkeeping of `__call__`: expired
assignments cleaned up, the consecutive-no-op counter reset when the clock
advanced by more than one time unit, and `last_action_time` refreshed. -/
def preprocess (env : Env) (st : AgentState) : AgentState :=
  let t := env.current_time_step
  { st with
    people_assignments := cleanupExpired st.people_assignments t
    consecutive_no_ops :=
      if t > st.last_action_time + 1 then 0 else st.consecutive_no_ops
    last_action_time := t }

/-- Result record of `_get_resource_utilization`. -/
structure ResourceUtil where
  person_utilization : ℚ
  avg_person_wait : ℚ
  busy_people : Nat
  deriving Repr, DecidableEq

/-- `_get_resource_utilization`: assignments still running count as busy;
assignments already over contribute `max(0, end_time - current_time)`
(which is never positive) to the wait total. -/
def getResourceUtilization (st : AgentState) (current_time : ℚ) : ResourceUtil :=
  let busy_people :=
    (st.people_assignments.filter (fun p => decide (p.2.end_time > current_time))).length
  let total_wait_time :=
    ((st.people_assignments.filter (fun p => ! decide (p.2.end_time > current_time))).map
      (fun p => max 0 (p.2.end_time - current_time))).sum
  { person_utilization :=
      if st.num_people > 0 then (busy_people : ℚ) / st.num_people else 0
    avg_person_wait :=
      if st.num_people > 0 then total_wait_time / st.num_people else 0
    busy_people := busy_people }

/-- `max(env.max_time_op * 0.1, 1.0)`, the acceptable-wait threshold. -/
def maxAcceptableWait (env : Env) : ℚ := max (env.max_time_op * (1 / 10)) 1

/-- The guard of the deliberate-deferral branch (step 5 of `__call__`):
utilization above 80% and short average wait. -/
def deferralCond (env : Env) (st : AgentState) (current_time : ℚ) : Bool :=
  let ru := getResourceUtilization st current_time
  decide (ru.person_utilization > 4 / 5) &&
    decide (ru.avg_person_wait ≤ maxAcceptableWait env * (1 / 2))

/-! ## Controller agent scoring (`_calculate_job_score_enhanced`) -/

/-- The seven-term weight vector of the controller agent. -/
structure ControllerWeights where
  spt : ℚ
  work_remaining : ℚ
  wait_penalty : ℚ
  machine_util : ℚ
  person_availability : ℚ
  critical_path : ℚ
  resource_efficiency : ℚ
  deriving Repr, DecidableEq

/-- The progress-regime weight table of `_calculate_job_score_enhanced`
(early `< 0.3`, middle `< 0.7`, late). -/
def controllerWeights (progress : ℚ) : ControllerWeights :=
  if progress < 3 / 10 then
    ⟨15 / 100, 25 / 100, 20 / 100, 15 / 100, 10 / 100, 10 / 100, 5 / 100⟩
  else if progress < 7 / 10 then
    ⟨20 / 100, 20 / 100, 20 / 100, 15 / 100, 15 / 100, 5 / 100, 5 / 100⟩
  else
    ⟨30 / 100, 15 / 100, 25 / 100, 10 / 100, 10 / 100, 5 / 100, 5 / 100⟩

def controllerWeightSum (w : ControllerWeights) : ℚ :=
  w.spt + w.work_remaining + w.wait_penalty + w.machine_util +
    w.person_availability + w.critical_path + w.resource_efficiency

/-- `sum(env.todo_time_step_job[j] for j in range(env.jobs))` over
`jobs * machines`, the progress ratio used by the controller agent. -/
def controllerProgress (env : Env) : ℚ :=
  let total_ops := env.jobs * env.machines
  let completed_ops := ((List.range env.jobs).map (fun j => todoAt env j)).sum
  if total_ops > 0 then (completed_ops : ℚ) / (total_ops : ℚ) else 0

/-- `sum(env.instance_matrix[job_idx][op][1] for op in range(current_op + 1, env.machines))`. -/
def remainingWorkAfter (env : Env) (job_idx current_op : Nat) : ℚ :=
  (((List.range env.machines).drop (current_op + 1)).map
    (fun op => (instOp env job_idx op).2)).sum

/-- `_calculate_job_score_enhanced`: the seven guarded sub-scores combined
with the progress-regime weights.  Every division in the source is guarded
by a positivity test, so the embedding is total. -/
def calculateJobScoreEnhanced (env : Env) (st : AgentState) (job_idx : Nat)
    (current_time : ℚ) (info : JobInfo) : ℚ :=
  let current_op := info.current_op
  let machine_id := info.machine_id
  let start_time := info.start_time
  let proc_time := (instOp env job_idx current_op).2
  let spt_score := if env.max_time_op > 0 then 1 - proc_time / env.max_time_op else 1
  let remaining_work := remainingWorkAfter env job_idx current_op
  let max_possible_work := env.max_time_op * env.machines
  let work_remaining_score :=
    if max_possible_work > 0 then remaining_work / max_possible_work else 0
  let wait_time := max 0 (start_time - current_time)
  let max_wait := if env.max_time_op > 0 then env.max_time_op else 1
  let wait_penalty := max 0 (1 - wait_time / max_wait)
  let machine_available_time := machineAvail env machine_id
  let machine_util_score :=
    if env.max_time_op > 0 then 1 - machine_available_time / env.max_time_op else 1
  let qualified_people_count :=
    (st.controller.filter (fun pm => machine_id ∈ pm.2)).length
  let person_availability_score :=
    if st.num_people > 0 then (qualified_people_count : ℚ) / st.num_people else 0
  let operations_remaining : ℚ := (env.machines : ℚ) - (current_op : ℚ)
  let critical_path_score :=
    if env.machines > 0 then 1 - operations_remaining / env.machines else 1
  let resource_efficiency :=
    if wait_time = 0 then 1 else max (1 / 10) (1 - wait_time / max_wait)
  let w := controllerWeights (controllerProgress env)
  w.spt * spt_score + w.work_remaining * work_remaining_score +
    w.wait_penalty * wait_penalty + w.machine_util * machine_util_score +
    w.person_availability * person_availability_score +
    w.critical_path * critical_path_score +
    w.resource_efficiency * resource_efficiency

/-! ## Controller agent decision function (`__call__`) -/

/-- `env.jobs if legal_actions[env.jobs] else 0`, the no-op fallback used by
the agents. -/
def noopFallback (env : Env) : Nat := if legalAt env env.jobs then env.jobs else 0

/-- `[job for job in all_legal_jobs if todo[job] < machines and
todo[job] < len(instance[job])]`, the double-check before forcing. -/
def trulyIncompleteJobs (env : Env) (all_legal_jobs : List Nat) : List Nat :=
  all_legal_jobs.filter (fun job =>
    decide (todoAt env job < env.machines) && decide (todoAt env job < numOps env job))

/-- `[job for job in available_jobs if start_time <= current_time + 0.1]`,
the immediate-start candidates. -/
def immediateJobs (current_time : ℚ) (available_jobs : List (Nat × JobInfo)) :
    List (Nat × JobInfo) :=
  available_jobs.filter (fun p => decide (p.2.start_time ≤ current_time + 1 / 10))

/-- Writing the chosen person's assignment and resetting the no-op counter
(the commit performed by `__call__` before returning a job). -/
def commitAssignment (st : AgentState) (job : Nat) (info : JobInfo) : AgentState :=
  { st with
    people_assignments :=
      dictInsert st.people_assignments info.person_id
        ⟨info.machine_id, info.end_time, job⟩
    consecutive_no_ops := 0 }

/-- The selection tail of `__call__` (source lines 188-286), applied to the
preprocessed state `st`, the `all_legal_jobs` list and the
`available_jobs`/`job_info` data (paired):

1. with no feasible candidate, force the first truly-incomplete legal job,
   else fall back to no-op;
2. prefer the best-scored job that can start within 0.1 time units;
3. when the consecutive-no-op counter reached its cap, force the globally
   best-scored job;
4. when the minimum wait is acceptable, pick the best-scored job within a
   tolerance band of that minimum;
5. when utilization is high and the average wait short, deliberately defer
   (increment the no-op counter, return no-op);
6. otherwise schedule the globally best-scored job. -/
def selectAction (env : Env) (st : AgentState) (current_time : ℚ)
    (all_legal_jobs : List Nat) (available_jobs : List (Nat × JobInfo)) :
    Nat × AgentState :=
  if available_jobs.isEmpty then
    if ¬ all_legal_jobs.isEmpty then
      let truly_incomplete := trulyIncompleteJobs env all_legal_jobs
      if ¬ truly_incomplete.isEmpty then (truly_incomplete.headD 0, st)
      else (noopFallback env, st)
    else (noopFallback env, st)
  else
    let score := fun p : Nat × JobInfo =>
      calculateJobScoreEnhanced env st p.1 current_time p.2
    let immediate_jobs := immediateJobs current_time available_jobs
    if ¬ immediate_jobs.isEmpty then
      let best_immediate := maxByD score immediate_jobs (0, default)
      (best_immediate.1, commitAssignment st best_immediate.1 best_immediate.2)
    else if st.consecutive_no_ops ≥ st.max_consecutive_no_ops then
      let best_job := maxByD score available_jobs (0, default)
      (best_job.1, commitAssignment st best_job.1 best_job.2)
    else
      let min_wait_job := minByD (fun p => p.2.start_time) available_jobs (0, default)
      let min_wait_time := min_wait_job.2.start_time - current_time
      if min_wait_time ≤ maxAcceptableWait env then
        let tolerance := max 1 (min_wait_time * (1 / 5))
        let short_wait_jobs := available_jobs.filter
          (fun p => decide (p.2.start_time - current_time ≤ min_wait_time + tolerance))
        let best_short_wait := maxByD score short_wait_jobs (0, default)
        (best_short_wait.1, commitAssignment st best_short_wait.1 best_short_wait.2)
      else if deferralCond env st current_time then
        (noopFallback env, { st with consecutive_no_ops := st.consecutive_no_ops + 1 })
      else
        let best_job := maxByD score available_jobs (0, default)
        (best_job.1, commitAssignment st best_job.1 best_job.2)

/-- The candidate loop of `__call__` (source lines 153-186): scan the jobs
in index order; a legal incomplete job joins `all_legal_jobs`; its best
person/machine combination, when it exists, joins the available list; when
the lookup fails and the machine has no qualified person at all, the fatal
`Controller configuration error` is raised (carrying the machine id). -/
def computeJobsAux (env : Env) (st : AgentState) (current_time : ℚ) :
    List Nat → List Nat × List (Nat × JobInfo) →
    Except Nat (List Nat × List (Nat × JobInfo))
  | [], acc => .ok acc
  | i :: rest, (all_legal, available) =>
    if legalIncomplete env i then
      let machine_id := nextMachine env i
      match findBestCombination env st i current_time with
      | some info =>
        computeJobsAux env st current_time rest
          (all_legal ++ [i], available ++ [(i, info)])
      | none =>
        if (qualifiedIds st.controller machine_id).isEmpty then .error machine_id
        else computeJobsAux env st current_time rest (all_legal ++ [i], available)
    else computeJobsAux env st current_time rest (all_legal, available)

def computeJobs (env : Env) (st : AgentState) (current_time : ℚ) :
    Except Nat (List Nat × List (Nat × JobInfo)) :=
  computeJobsAux env st current_time (List.range env.jobs) ([], [])

/-- `ControllerJSSAgent.__call__`: validate the mask size (fail-safe no-op on
mismatch), run the entry bookkeeping, build the candidate lists (possibly
raising the fatal configuration error), and select an action.  Returns the
action together with the successor agent state. -/
def controllerCall (env : Env) (st : AgentState) : Except Nat (Nat × AgentState) :=
  if env.action_mask.length ≠ env.jobs + 1 then .ok (env.jobs, st)
  else
    let current_time := env.current_time_step
    let stc := preprocess env st
    match computeJobs env stc current_time with
    | .error m => .error m
    | .ok (all_legal, available) =>
      .ok (selectAction env stc current_time all_legal available)

/-! ## Scoring heuristics library (src/comparison_framework/agents.py)

The heuristics are `Option`-valued: `none` models the Python
`ZeroDivisionError` (or non-finite numpy result) on an unguarded division
whose divisor is zero.  Only `_machine_utilization_score` tests its divisor
in the source. -/

/-- `_shortest_processing_time_score`: `1.0 - (proc_time / max_time)`,
unguarded division. -/
def shortestProcessingTimeScore (proc_time max_time : ℚ) : Option ℚ :=
  if max_time = 0 then none else some (1 - proc_time / max_time)

/-- `_work_remaining_score`: remaining work from the next operation on,
normalized by `max_time_op * machines`, unguarded division. -/
def workRemainingScore (env : Env) (job_idx : Nat) : Option ℚ :=
  let remaining_work :=
    (((List.range env.machines).drop (todoAt env job_idx)).map
      (fun op => (instOp env job_idx op).2)).sum
  let max_possible_work := env.max_time_op * env.machines
  if max_possible_work = 0 then none else some (remaining_work / max_possible_work)

/-- `_critical_path_score`: remaining operation count over `machines`,
unguarded division. -/
def criticalPathScore (env : Env) (job_idx : Nat) : Option ℚ :=
  let remaining_ops : ℚ := (env.machines : ℚ) - (todoAt env job_idx : ℚ)
  if (env.machines : ℚ) = 0 then none else some (remaining_ops / env.machines)

/-- `_machine_utilization_score`: the only heuristic guarding its divisor —
`1 - avail/max_time_op` when `max_time_op > 0`, else the neutral `1.0`. -/
def machineUtilizationScore (env : Env) (machine_id : Nat) : Option ℚ :=
  if env.max_time_op > 0 then some (1 - machineAvail env machine_id / env.max_time_op)
  else some 1

/-- `_bottleneck_machine_score`: fraction of legal jobs needing the same
machine, unguarded division by `env.jobs`. -/
def bottleneckMachineScore (env : Env) (job_idx current_op : Nat) : Option ℚ :=
  let current_machine := (instOp env job_idx current_op).1
  let machine_demand :=
    ((List.range env.jobs).filter (fun j =>
      legalAt env j && decide (neededAt env j = current_machine))).length
  if (env.jobs : ℚ) = 0 then none else some ((machine_demand : ℚ) / env.jobs)

/-- `_flow_continuity_score`: `1.0` on the last operation or when the next
machine frees up in time, else a wait penalty with unguarded division. -/
def flowContinuityScore (env : Env) (job_idx current_op : Nat) : Option ℚ :=
  if (current_op : ℤ) ≥ (env.machines : ℤ) - 1 then some 1
  else
    let next_machine := (instOp env job_idx (current_op + 1)).1
    let next_machine_available_time := machineAvail env next_machine
    let current_proc_time := (instOp env job_idx current_op).2
    if next_machine_available_time ≤ current_proc_time then some 1
    else if env.max_time_op = 0 then none
    else some (max 0 (1 - (next_machine_available_time - current_proc_time) / env.max_time_op))

/-! ## Hybrid priority-scoring agent -/

/-- The six-heuristic weight vector of `HybridPriorityScoringAgent`. -/
structure HybridWeights where
  spt : ℚ
  work_remaining : ℚ
  critical_path : ℚ
  machine_util : ℚ
  bottleneck : ℚ
  flow_continuity : ℚ
  deriving Repr, DecidableEq

/-- `_get_dynamic_weights`: the three progress regimes of the hybrid agent. -/
def hybridDynamicWeights (progress : ℚ) : HybridWeights :=
  if progress < 3 / 10 then
    ⟨15 / 100, 25 / 100, 25 / 100, 15 / 100, 10 / 100, 10 / 100⟩
  else if progress < 7 / 10 then
    ⟨20 / 100, 20 / 100, 15 / 100, 20 / 100, 15 / 100, 10 / 100⟩
  else
    ⟨30 / 100, 10 / 100, 15 / 100, 25 / 100, 10 / 100, 10 / 100⟩

def hybridWeightSum (w : HybridWeights) : ℚ :=
  w.spt + w.work_remaining + w.critical_path + w.machine_util +
    w.bottleneck + w.flow_continuity

/-- `_calculate_progress_ratio`: `sum(env.todo_time_step_job)` over
`jobs * machines`. -/
def hybridProgress (env : Env) : ℚ :=
  let completed_ops := (env.todo_time_step_job.map (fun n => (n : ℚ))).sum
  let total_ops := env.jobs * env.machines
  if total_ops > 0 then completed_ops / (total_ops : ℚ) else 0

/-- `_calculate_job_score`: the six heuristics combined with the dynamic
weights; `none` when any unguarded division raised. -/
def hybridJobScore (env : Env) (progress : ℚ) (job_idx : Nat) : Option ℚ := do
  let current_op := todoAt env job_idx
  let current_machine := neededAt env job_idx
  let current_proc_time := (instOp env job_idx current_op).2
  let spt_score ← shortestProcessingTimeScore current_proc_time env.max_time_op
  let work_remaining_score ← workRemainingScore env job_idx
  let critical_path_score ← criticalPathScore env job_idx
  let machine_utilization_score ← machineUtilizationScore env current_machine
  let bottleneck_score ← bottleneckMachineScore env job_idx current_op
  let flow_continuity_score ← flowContinuityScore env job_idx current_op
  let w := hybridDynamicWeights progress
  pure (w.spt * spt_score + w.work_remaining * work_remaining_score +
    w.critical_path * critical_path_score +
    w.machine_util * machine_utilization_score +
    w.bottleneck * bottleneck_score + w.flow_continuity * flow_continuity_score)

/-- `HybridPriorityScoringAgent.__call__` with the single `np.random.random()`
draw passed in as `r`.  The episode-step counter of the source only lazily
captures the job/machine counts, which are otherwise unused, so the action
depends only on the environment snapshot and the draw. -/
def hybridCall (env : Env) (r : ℚ) : Option Nat :=
  let legal := env.action_mask
  if legal.dropLast.all (fun b => !b) && legal.getLastD false then some env.jobs
  else
    let progress := hybridProgress env
    let legal_job_indices := (List.range env.jobs).filter (fun i => legalAt env i)
    if legal_job_indices.isEmpty then some (noopFallback env)
    else do
      let scored ← legal_job_indices.mapM (fun j =>
        (hybridJobScore env progress j).map (fun s => (j, s)))
      let best_job := maxByD (fun p => p.2) scored (0, 0)
      if legalAt env env.jobs && decide (progress < 3 / 10) && decide (r < 1 / 20) then
        pure env.jobs
      else
        pure best_job.1

/-! ## Adaptive lookahead agent -/

/-- `_evaluate_action_with_lookahead`: immediate term (SPT reward, free-now
machine bonus) plus the shallow one-step future term; the divisions by
`max_time_op` are unguarded. -/
def evaluateActionWithLookahead (env : Env) (action : Nat) : Option ℚ := do
  let current_op := todoAt env action
  let proc_time := (instOp env action current_op).2
  let machine_needed := neededAt env action
  if env.max_time_op = 0 then none
  else
    let immediate0 := (env.max_time_op - proc_time) / env.max_time_op
    let immediate_score :=
      if machineAvail env machine_needed = 0 then immediate0 + 1 / 2 else immediate0
    if current_op < env.machines - 1 then
      let next_machine := (instOp env action (current_op + 1)).1
      let next_proc_time := (instOp env action (current_op + 1)).2
      let next_available_time := machineAvail env next_machine
      let future0 : ℚ := if next_available_time ≤ proc_time then 3 / 10 else 0
      let future_score :=
        future0 + (env.max_time_op - next_proc_time) / (2 * env.max_time_op)
      pure (immediate_score + future_score)
    else
      pure (immediate_score + 0)

/-- `AdaptiveLookAheadAgent.__call__`: the best-scoring pass keeps the first
candidate, replacing it only on a strictly greater score (`best_score`
starts at minus infinity, so the first evaluated candidate always wins the
first comparison). -/
def lookaheadCall (env : Env) : Option Nat :=
  let legal_job_indices := (List.range env.jobs).filter (fun i => legalAt env i)
  if legal_job_indices.isEmpty then some (noopFallback env)
  else if legal_job_indices.length = 1 then some (legal_job_indices.headD 0)
  else do
    let scored ← legal_job_indices.mapM (fun a =>
      (evaluateActionWithLookahead env a).map (fun s => (a, s)))
    let best := scored.foldl
      (fun b p =>
        match b.2 with
        | none => (p.1, some p.2)
        | some bs => if p.2 > bs then (p.1, some p.2) else b)
      (legal_job_indices.headD 0, (none : Option ℚ))
    pure best.1

/-! ## Episode runner (`ControllerJSSAgent.run_episode`)

The external simulator is abstracted as a step function
`stepFn : Env → Nat → StepOut` returning the next snapshot, the reward and
the done/truncated flags.  The per-job `completed_ops` sets of the source
are represented by the flat list `recorded` of `(job_id, operation_index)`
keys, appended exactly when the source adds to `completed_ops[action]` —
`current_op in completed_ops[action]` becomes a membership test in
`recorded`. -/

/-- The step function's result: `(obs, reward, done, truncated, info)`
without the opaque parts. -/
structure StepOut where
  env : Env
  reward : ℚ
  done : Bool
  truncated : Bool

/-- One entry of `current_action_assignments`. -/
structure ActionAssignment where
  person_id : Nat
  machine_id : Nat
  start_time : ℚ
  end_time : ℚ
  current_op : Nat
  deriving Repr, DecidableEq

/-- One recorded schedule row
`(job_id, machine_id, start_time, end_time, person_id)`. -/
structure ScheduledTask where
  job_id : Nat
  machine_id : Nat
  start_time : ℚ
  end_time : ℚ
  person_id : Nat
  deriving Repr, DecidableEq

/-- The loop-local state of `run_episode`. -/
structure EpisodeState where
  env : Env
  agent : AgentState
  schedule : List ScheduledTask
  recorded : List (Nat × Nat)
  caa : List (Nat × ActionAssignment)
  total_reward : ℚ
  deriving Repr, DecidableEq

/-- The action-validation chain of `run_episode` (source lines 421-432):
out-of-range, completed, exhausted or mask-illegal job actions are replaced
by the no-op. -/
def validateAction (env : Env) (action : Nat) : Nat :=
  if action ≥ env.jobs ∧ action ≠ env.jobs then env.jobs
  else if action < env.jobs then
    if todoAt env action ≥ env.machines then env.jobs
    else if todoAt env action ≥ numOps env action then env.jobs
    else if ¬ legalAt env action then env.jobs
    else action
  else action

/-- The pre-step bookkeeping (source lines 434-469): for a real job action,
find the person holding the matching assignment (first table entry whose
job and machine match), fall back to the earliest available person, then to
person 0, and store the predicted times in `current_action_assignments`. -/
def preStepRecord (env : Env) (st : AgentState)
    (caa : List (Nat × ActionAssignment)) (action : Nat) :
    List (Nat × ActionAssignment) :=
  if action < env.jobs then
    let current_op := todoAt env action
    if current_op < env.machines ∧ current_op < numOps env action then
      let machine_id := (instOp env action current_op).1
      let proc_time := (instOp env action current_op).2
      let current_time := env.current_time_step
      let assigned_person :=
        match st.people_assignments.find?
          (fun p => p.2.job_id == action && p.2.machine_id == machine_id) with
        | some p => p.1
        | none =>
          match getEarliestAvailablePerson st machine_id current_time with
          | some (pid, _) => pid
          | none => 0
      let machine_available_time := machineAvail env machine_id
      let actual_start_time := max current_time (current_time + machine_available_time)
      dictInsert caa action
        ⟨assigned_person, machine_id, actual_start_time,
          actual_start_time + proc_time, current_op⟩
    else caa
  else caa

/-- The post-step recording (source lines 481-516), evaluated on the
post-step snapshot `env'`: a matching `current_action_assignments` entry is
turned into exactly one schedule row per fresh `(job, operation)` key;
without a matching entry the recovery path synthesizes a row from the
current clock and the operation's duration (person 0). -/
def recordAfterStep (env' : Env) (action : Nat)
    (caa : List (Nat × ActionAssignment))
    (schedule : List ScheduledTask) (recorded : List (Nat × Nat)) :
    List ScheduledTask × List (Nat × Nat) × List (Nat × ActionAssignment) :=
  if action < env'.jobs then
    match dictLookup caa action with
    | some assignment =>
      if (action, assignment.current_op) ∉ recorded then
        (schedule ++ [⟨action, assignment.machine_id, assignment.start_time,
            assignment.end_time, assignment.person_id⟩],
          recorded ++ [(action, assignment.current_op)],
          dictErase caa action)
      else (schedule, recorded, dictErase caa action)
    | none =>
      let current_op_int : ℤ := (todoAt env' action : ℤ) - 1
      if current_op_int ≥ 0 ∧ (action, current_op_int.toNat) ∉ recorded then
        let current_op := current_op_int.toNat
        let machine_id := (instOp env' action current_op).1
        let proc_time := (instOp env' action current_op).2
        let current_time := env'.current_time_step
        (schedule ++ [⟨action, machine_id, current_time - proc_time,
            current_time, 0⟩],
          recorded ++ [(action, current_op)], caa)
      else (schedule, recorded, caa)
  else (schedule, recorded, caa)

/-- One pass of the `run_episode` loop: decide, validate, pre-record, step,
accumulate the reward, post-record, and fold `truncated` into `done`.  A
fatal configuration error from the decision propagates out of the loop. -/
def episodeStep (stepFn : Env → Nat → StepOut) (es : EpisodeState) :
    Except Nat (EpisodeState × Bool) :=
  match controllerCall es.env es.agent with
  | .error m => .error m
  | .ok (action0, st') =>
    let action := validateAction es.env action0
    let caa' := preStepRecord es.env st' es.caa action
    let out := stepFn es.env action
    let rres := recordAfterStep out.env action caa' es.schedule es.recorded
    .ok ({ env := out.env, agent := st', schedule := rres.1,
           recorded := rres.2.1, caa := rres.2.2,
           total_reward := es.total_reward + out.reward },
         out.done || out.truncated)

/-- The bounded episode loop (`iteration_count < max_iterations`). -/
def runEpisodeAux (stepFn : Env → Nat → StepOut) :
    Nat → EpisodeState → Except Nat EpisodeState
  | 0, es => .ok es
  | fuel + 1, es =>
    match episodeStep stepFn es with
    | .error m => .error m
    | .ok (es', done) => if done then .ok es' else runEpisodeAux stepFn fuel es'

/-- `run_episode`: drive the environment from `env0` under the controller
agent, returning makespan, total reward, the schedule and the recorded
`(job, operation)` keys (the `completed_ops` bookkeeping, returned for
inspection). -/
def runEpisode (stepFn : Env → Nat → StepOut) (env0 : Env) (st0 : AgentState) :
    Except Nat (ℚ × ℚ × List ScheduledTask × List (Nat × Nat)) :=
  (runEpisodeAux stepFn (env0.jobs * env0.machines * 10)
      { env := env0, agent := st0, schedule := [], recorded := [],
        caa := [], total_reward := 0 }).map
    (fun es => (es.env.current_time_step, es.total_reward, es.schedule, es.recorded))

/-! ## Supporting lemmas -/

theorem headD_mem (l : List α) (d : α) (h : l ≠ []) : l.headD d ∈ l := by
  cases l with
  | nil => exact absurd rfl h
  | cons x xs => simp

theorem nodup_append_singleton (l : List α) (k : α) (hn : l.Nodup) (hk : k ∉ l) :
    (l ++ [k]).Nodup := by
  rw [List.nodup_append]
  refine ⟨hn, List.nodup_singleton k, ?_⟩
  intro a ha hb
  simp only [List.mem_singleton] at hb
  subst hb
  exact hk ha

theorem minByD_mem_cons (f : α → ℚ) (x : α) (xs : List α) :
    minByD f (x :: xs) x ∈ x :: xs :=
  minByD_mem f (x :: xs) x (by simp)

/-- Characterization of the entries of `qualified_people`. -/
theorem qualifiedAvail_mem (st : AgentState) (machine_id : Nat) (t : ℚ)
    (p : Nat × ℚ) (hp : p ∈ qualifiedAvail st machine_id t) :
    t ≤ p.2 ∧
      (∀ a, dictLookup st.people_assignments p.1 = some a → a.end_time ≤ p.2) := by
  obtain ⟨p1, p2⟩ := p
  unfold qualifiedAvail at hp
  obtain ⟨pm, _, hpm⟩ := List.mem_filterMap.mp hp
  by_cases hm : machine_id ∈ pm.2
  · rw [if_pos hm] at hpm
    rcases hlook : dictLookup st.people_assignments pm.1 with _ | a <;>
      rw [hlook] at hpm <;>
      simp only [Option.some.injEq, Prod.mk.injEq] at hpm <;>
      obtain ⟨h1, h2⟩ := hpm <;> subst h1 <;> subst h2
    · refine ⟨le_rfl, fun a ha => ?_⟩
      rw [hlook] at ha
      exact absurd ha (by simp)
    · refine ⟨le_max_left _ _, fun b hb => ?_⟩
      rw [hlook] at hb
      injection hb with hb
      rw [hb]
      exact le_max_right _ _
  · rw [if_neg hm] at hpm
    exact absurd hpm (by simp)

theorem getEarliest_some_elim (st : AgentState) (machine_id : Nat) (t : ℚ)
    (p : Nat × ℚ) (h : getEarliestAvailablePerson st machine_id t = some p) :
    p ∈ qualifiedAvail st machine_id t ∧ t ≤ p.2 ∧
      (∀ a, dictLookup st.people_assignments p.1 = some a → a.end_time ≤ p.2) := by
  unfold getEarliestAvailablePerson at h
  have hmem : p ∈ qualifiedAvail st machine_id t := by
    rcases hq : qualifiedAvail st machine_id t with _ | ⟨x, xs⟩
    · rw [hq] at h; exact absurd h (by simp)
    · rw [hq] at h
      injection h with h
      exact h ▸ minByD_mem_cons (fun q => q.2) x xs
  exact ⟨hmem, (qualifiedAvail_mem st machine_id t p hmem).1,
    (qualifiedAvail_mem st machine_id t p hmem).2⟩

theorem getEarliest_none_iff (st : AgentState) (machine_id : Nat) (t : ℚ) :
    getEarliestAvailablePerson st machine_id t = none ↔
      qualifiedIds st.controller machine_id = [] := by
  have hiff : qualifiedAvail st machine_id t = [] ↔
      qualifiedIds st.controller machine_id = [] := by
    unfold qualifiedAvail qualifiedIds
    simp only [List.filterMap_eq_nil_iff, List.map_eq_nil_iff, List.filter_eq_nil_iff]
    constructor
    · intro hall pm hpm hmem
      have := hall pm hpm
      rw [if_pos (of_decide_eq_true hmem)] at this
      exact absurd this (by simp)
    · intro hall pm hpm
      rw [if_neg (fun hc => hall pm hpm (decide_eq_true hc))]
  unfold getEarliestAvailablePerson
  rcases hq : qualifiedAvail st machine_id t with _ | ⟨x, xs⟩
  · simpa using hiff.mp hq
  · simp only []
    constructor
    · intro hcontra; exact absurd hcontra (by simp)
    · intro hids
      exact absurd (hq ▸ hiff.mpr hids) (by simp)

theorem findBest_some_elim (env : Env) (st : AgentState) (i : Nat) (t : ℚ)
    (info : JobInfo) (h : findBestCombination env st i t = some info) :
    info.machine_id = nextMachine env i ∧
      info.current_op = todoAt env i ∧
      info.end_time = info.start_time + (instOp env i (todoAt env i)).2 ∧
      t ≤ info.start_time ∧
      (∀ a, dictLookup st.people_assignments info.person_id = some a →
        a.end_time ≤ info.start_time) := by
  simp only [findBestCombination] at h
  rcases hg : getEarliestAvailablePerson st (instOp env i (todoAt env i)).1 t
    with _ | ⟨p, avail⟩ <;> rw [hg] at h
  · exact absurd h (by simp)
  · injection h with h
    obtain ⟨_, ht, hprev⟩ := getEarliest_some_elim st _ t (p, avail) hg
    subst h
    refine ⟨rfl, rfl, rfl, le_trans ht (le_max_left _ _), ?_⟩
    intro a ha
    exact le_trans (hprev a ha) (le_max_left _ _)

theorem findBest_none_iff (env : Env) (st : AgentState) (i : Nat) (t : ℚ) :
    findBestCombination env st i t = none ↔
      qualifiedIds st.controller (nextMachine env i) = [] := by
  simp only [findBestCombination, nextMachine]
  rcases hg : getEarliestAvailablePerson st (instOp env i (todoAt env i)).1 t
    with _ | ⟨p, avail⟩
  · simp only [hg]
    exact ⟨fun _ => (getEarliest_none_iff st _ t).mp hg, fun _ => trivial⟩
  · simp only [hg]
    constructor
    · intro hcontra; exact absurd hcontra (by simp)
    · intro hq
      exact absurd (hg ▸ (getEarliest_none_iff st ((instOp env i (todoAt env i)).1) t).mpr hq)
        (by simp)

/-- Accumulator monotonicity of the candidate loop. -/
theorem computeJobsAux_acc_mono (env : Env) (st : AgentState) (t : ℚ)
    (l : List Nat) (al0 : List Nat) (av0 : List (Nat × JobInfo))
    (al : List Nat) (av : List (Nat × JobInfo))
    (h : computeJobsAux env st t l (al0, av0) = .ok (al, av)) :
    (∀ j ∈ al0, j ∈ al) ∧ (∀ x ∈ av0, x ∈ av) := by
  induction l generalizing al0 av0 with
  | nil =>
    simp only [computeJobsAux, Except.ok.injEq, Prod.mk.injEq] at h
    obtain ⟨h1, h2⟩ := h
    exact ⟨fun j hj => h1 ▸ hj, fun x hx => h2 ▸ hx⟩
  | cons i rest ih =>
    simp only [computeJobsAux] at h
    split at h
    · split at h
      · obtain ⟨h1, h2⟩ := ih _ _ h
        exact ⟨fun j hj => h1 j (List.mem_append_left _ hj),
          fun x hx => h2 x (List.mem_append_left _ hx)⟩
      · split at h
        · exact absurd h (by simp)
        · obtain ⟨h1, h2⟩ := ih _ _ h
          exact ⟨fun j hj => h1 j (List.mem_append_left _ hj), h2⟩
    · exact ih _ _ h

/-- Every legal incomplete job of the scanned list ends up in
`all_legal_jobs` and (on success) contributes a feasible candidate. -/
theorem computeJobsAux_covers (env : Env) (st : AgentState) (t : ℚ)
    (l : List Nat) (al0 : List Nat) (av0 : List (Nat × JobInfo))
    (al : List Nat) (av : List (Nat × JobInfo))
    (h : computeJobsAux env st t l (al0, av0) = .ok (al, av)) :
    ∀ i ∈ l, legalIncomplete env i = true →
      i ∈ al ∧ ∃ info, (i, info) ∈ av := by
  induction l generalizing al0 av0 with
  | nil => simp
  | cons j rest ih =>
    intro i hi hleg
    simp only [computeJobsAux] at h
    rcases List.mem_cons.mp hi with rfl | hi
    · rw [if_pos hleg] at h
      rcases hf : findBestCombination env st i t with _ | info
      · rw [hf] at h
        rw [if_pos (by simpa using (findBest_none_iff env st i t).mp hf)] at h
        exact absurd h (by simp)
      · rw [hf] at h
        obtain ⟨h1, h2⟩ := computeJobsAux_acc_mono env st t rest _ _ _ _ h
        exact ⟨h1 i (by simp), info, h2 (i, info) (by simp)⟩
    · split at h
      · split at h
        · exact ih _ _ h i hi hleg
        · split at h
          · exact absurd h (by simp)
          · exact ih _ _ h i hi hleg
      · exact ih _ _ h i hi hleg

/-- Every entry of the available list comes from the initial accumulator or
from a scanned legal incomplete job whose feasibility computation produced
exactly that record. -/
theorem computeJobsAux_av_elim (env : Env) (st : AgentState) (t : ℚ)
    (l : List Nat) (al0 : List Nat) (av0 : List (Nat × JobInfo))
    (al : List Nat) (av : List (Nat × JobInfo))
    (h : computeJobsAux env st t l (al0, av0) = .ok (al, av)) :
    ∀ x ∈ av, x ∈ av0 ∨
      (x.1 ∈ l ∧ legalIncomplete env x.1 = true ∧
        findBestCombination env st x.1 t = some x.2) := by
  induction l generalizing al0 av0 with
  | nil =>
    simp only [computeJobsAux, Except.ok.injEq, Prod.mk.injEq] at h
    intro x hx
    exact Or.inl (h.2 ▸ hx)
  | cons j rest ih =>
    intro x hx
    simp only [computeJobsAux] at h
    split at h
    · rename_i hleg
      rcases hf : findBestCombination env st j t with _ | info <;> rw [hf] at h
      · rw [if_pos (by simpa using (findBest_none_iff env st j t).mp hf)] at h
        exact absurd h (by simp)
      · rcases ih _ _ h x hx with hmem | ⟨hx1, hx2, hx3⟩
        · rcases List.mem_append.mp hmem with hmem | hmem
          · exact Or.inl hmem
          · simp only [List.mem_singleton] at hmem
            subst hmem
            exact Or.inr ⟨by simp, hleg, hf⟩
        · exact Or.inr ⟨List.mem_cons_of_mem _ hx1, hx2, hx3⟩
    · rcases ih _ _ h x hx with hmem | ⟨hx1, hx2, hx3⟩
      · exact Or.inl hmem
      · exact Or.inr ⟨List.mem_cons_of_mem _ hx1, hx2, hx3⟩

/-- Every entry of `all_legal_jobs` comes from the initial accumulator or is
a scanned legal incomplete job. -/
theorem computeJobsAux_al_elim (env : Env) (st : AgentState) (t : ℚ)
    (l : List Nat) (al0 : List Nat) (av0 : List (Nat × JobInfo))
    (al : List Nat) (av : List (Nat × JobInfo))
    (h : computeJobsAux env st t l (al0, av0) = .ok (al, av)) :
    ∀ j ∈ al, j ∈ al0 ∨ (j ∈ l ∧ legalIncomplete env j = true) := by
  induction l generalizing al0 av0 with
  | nil =>
    simp only [computeJobsAux, Except.ok.injEq, Prod.mk.injEq] at h
    intro j hj
    exact Or.inl (h.1 ▸ hj)
  | cons i rest ih =>
    intro j hj
    simp only [computeJobsAux] at h
    split at h
    · rename_i hleg
      have hstep : ∀ av1, computeJobsAux env st t rest (al0 ++ [i], av1) = .ok (al, av) →
          j ∈ al0 ∨ j ∈ i :: rest ∧ legalIncomplete env j = true := by
        intro av1 h1
        rcases ih _ _ h1 j hj with hmem | ⟨hj1, hj2⟩
        · rcases List.mem_append.mp hmem with hmem | hmem
          · exact Or.inl hmem
          · simp only [List.mem_singleton] at hmem
            subst hmem
            exact Or.inr ⟨by simp, hleg⟩
        · exact Or.inr ⟨List.mem_cons_of_mem _ hj1, hj2⟩
      split at h
      · exact hstep _ h
      · split at h
        · exact absurd h (by simp)
        · exact hstep _ h
    · rcases ih _ _ h j hj with hmem | ⟨hj1, hj2⟩
      · exact Or.inl hmem
      · exact Or.inr ⟨List.mem_cons_of_mem _ hj1, hj2⟩

/-- The candidate loop raises only the fatal configuration error: the error
payload is the next machine of some scanned legal incomplete job, and that
machine has no qualified person. -/
theorem computeJobsAux_error_elim (env : Env) (st : AgentState) (t : ℚ)
    (l : List Nat) (al0 : List Nat) (av0 : List (Nat × JobInfo)) (m : Nat)
    (h : computeJobsAux env st t l (al0, av0) = .error m) :
    qualifiedIds st.controller m = [] ∧
      ∃ i ∈ l, legalIncomplete env i = true ∧ nextMachine env i = m := by
  induction l generalizing al0 av0 with
  | nil => exact absurd h (by simp [computeJobsAux])
  | cons i rest ih =>
    simp only [computeJobsAux] at h
    split at h
    · rename_i hleg
      split at h
      · obtain ⟨hq, i', hi', h1, h2⟩ := ih _ _ h
        exact ⟨hq, i', List.mem_cons_of_mem _ hi', h1, h2⟩
      · split at h
        · rename_i hempty
          injection h with h
          subst h
          exact ⟨by simpa using hempty, i, by simp, hleg, rfl⟩
        · obtain ⟨hq, i', hi', h1, h2⟩ := ih _ _ h
          exact ⟨hq, i', List.mem_cons_of_mem _ hi', h1, h2⟩
    · obtain ⟨hq, i', hi', h1, h2⟩ := ih _ _ h
      exact ⟨hq, i', List.mem_cons_of_mem _ hi', h1, h2⟩

/-- If some scanned legal incomplete job's machine has no qualified person,
the candidate loop raises. -/
theorem computeJobsAux_error_exists (env : Env) (st : AgentState) (t : ℚ)
    (l : List Nat) (al0 : List Nat) (av0 : List (Nat × JobInfo))
    (hbad : ∃ i ∈ l, legalIncomplete env i = true ∧
      qualifiedIds st.controller (nextMachine env i) = []) :
    ∃ m, computeJobsAux env st t l (al0, av0) = .error m := by
  induction l generalizing al0 av0 with
  | nil => simp at hbad
  | cons j rest ih =>
    obtain ⟨i, hi, hleg, hq⟩ := hbad
    simp only [computeJobsAux]
    rcases List.mem_cons.mp hi with rfl | hi
    · rw [if_pos hleg]
      have hf : findBestCombination env st i t = none :=
        (findBest_none_iff env st i t).mpr hq
      rw [hf, if_pos (by simpa using hq)]
      exact ⟨nextMachine env i, rfl⟩
    · split
      · split
        · exact ih _ _ ⟨i, hi, hleg, hq⟩
        · split
          · exact ⟨_, rfl⟩
          · exact ih _ _ ⟨i, hi, hleg, hq⟩
      · exact ih _ _ ⟨i, hi, hleg, hq⟩

/-- If every scanned legal incomplete job's machine has a qualified person,
the candidate loop succeeds. -/
theorem computeJobsAux_ok_exists (env : Env) (st : AgentState) (t : ℚ)
    (l : List Nat) (al0 : List Nat) (av0 : List (Nat × JobInfo))
    (hgood : ∀ i ∈ l, legalIncomplete env i = true →
      qualifiedIds st.controller (nextMachine env i) ≠ []) :
    ∃ res, computeJobsAux env st t l (al0, av0) = .ok res := by
  induction l generalizing al0 av0 with
  | nil => exact ⟨(al0, av0), rfl⟩
  | cons i rest ih =>
    simp only [computeJobsAux]
    by_cases hleg : legalIncomplete env i = true
    · rw [if_pos hleg]
      rcases hf : findBestCombination env st i t with _ | info
      · exact absurd ((findBest_none_iff env st i t).mp hf)
          (hgood i (by simp) hleg)
      · exact ih _ _ (fun j hj => hgood j (List.mem_cons_of_mem _ hj))
    · rw [if_neg hleg]
      exact ih _ _ (fun j hj => hgood j (List.mem_cons_of_mem _ hj))

/-- Case analysis of the selection tail of `__call__`: with no candidates the
state is unchanged and the action is the forced first truly-incomplete legal
job (no-op fallback when none); otherwise the agent either commits one of
the available candidates, or — only below the consecutive-no-op cap and
under the deferral guard — returns no-op with the counter incremented. -/
theorem selectAction_spec (env : Env) (st : AgentState) (t : ℚ)
    (al : List Nat) (av : List (Nat × JobInfo)) :
    (av = [] ∧ selectAction env st t al av =
      ((if (trulyIncompleteJobs env al).isEmpty then noopFallback env
        else (trulyIncompleteJobs env al).headD 0), st))
    ∨ (∃ x ∈ av, selectAction env st t al av = (x.1, commitAssignment st x.1 x.2))
    ∨ (av ≠ [] ∧ deferralCond env st t = true ∧
        st.consecutive_no_ops < st.max_consecutive_no_ops ∧
        selectAction env st t al av =
          (noopFallback env, { st with consecutive_no_ops := st.consecutive_no_ops + 1 })) := by
  by_cases hav : av.isEmpty
  · left
    have hav' : av = [] := List.isEmpty_iff.mp hav
    refine ⟨hav', ?_⟩
    unfold selectAction
    rw [if_pos hav]
    by_cases hal : al.isEmpty
    · rw [if_neg (by simpa using hal)]
      have : trulyIncompleteJobs env al = [] := by
        unfold trulyIncompleteJobs
        rw [List.isEmpty_iff.mp hal, List.filter_nil]
      simp [this]
    · rw [if_pos (by simpa using hal)]
      by_cases htr : (trulyIncompleteJobs env al).isEmpty
      · rw [if_neg (by simpa using htr), if_pos htr]
      · rw [if_pos (by simpa using htr), if_neg htr]
  · have hne : av ≠ [] := by simpa [List.isEmpty_iff] using hav
    unfold selectAction
    rw [if_neg hav]
    by_cases himm : (immediateJobs t av).isEmpty
    · rw [if_neg (by simpa using himm)]
      by_cases hcap : st.consecutive_no_ops ≥ st.max_consecutive_no_ops
      · rw [if_pos hcap]
        right; left
        exact ⟨maxByD _ av (0, default), maxByD_mem _ av (0, default) hne, rfl⟩
      · rw [if_neg hcap]
        by_cases hwait :
            (minByD (fun p => p.2.start_time) av (0, default)).2.start_time - t ≤
              maxAcceptableWait env
        · rw [if_pos hwait]
          right; left
          set short := av.filter (fun p =>
            decide (p.2.start_time - t ≤
              (minByD (fun q => q.2.start_time) av (0, default)).2.start_time - t +
                max 1 (((minByD (fun q => q.2.start_time) av (0, default)).2.start_time - t) * (1 / 5))))
            with hshort
          have hmin_mem : minByD (fun p => p.2.start_time) av (0, default) ∈ av :=
            minByD_mem _ av (0, default) hne
          have hshort_ne : short ≠ [] := by
            have hm : minByD (fun p => p.2.start_time) av (0, default) ∈ short := by
              rw [hshort]
              refine List.mem_filter.mpr ⟨hmin_mem, ?_⟩
              simp only [decide_eq_true_eq]
              have h1 : (1 : ℚ) ≤ max 1 (((minByD (fun q => q.2.start_time) av (0, default)).2.start_time - t) * (1 / 5)) :=
                le_max_left _ _
              linarith
            exact List.ne_nil_of_mem hm
          refine ⟨maxByD _ short (0, default), ?_, rfl⟩
          exact List.mem_of_mem_filter (maxByD_mem _ short (0, default) hshort_ne)
        · rw [if_neg hwait]
          by_cases hdef : deferralCond env st t = true
          · rw [if_pos hdef]
            right; right
            exact ⟨hne, hdef, lt_of_not_ge hcap, rfl⟩
          · rw [if_neg hdef]
            right; left
            exact ⟨maxByD _ av (0, default), maxByD_mem _ av (0, default) hne, rfl⟩
    · rw [if_pos (by simpa using himm)]
      right; left
      have himm_ne : immediateJobs t av ≠ [] := by
        simpa [List.isEmpty_iff] using himm
      refine ⟨maxByD _ (immediateJobs t av) (0, default), ?_, rfl⟩
      exact List.mem_of_mem_filter (maxByD_mem _ (immediateJobs t av) (0, default) himm_ne)

/-! ## Concrete instances used by witnesses and counterexamples -/

/-- A one-job, one-machine snapshot where the job can start immediately. -/
def envA : Env :=
  { jobs := 1, machines := 1, instance_matrix := [[(0, 2)]],
    todo_time_step_job := [0], needed_machine_jobs := [0],
    time_until_available_machine := [0], max_time_op := 2,
    current_time_step := 0, action_mask := [true, true] }

/-- A controller state with one fully-qualified, free person. -/
def stA : AgentState :=
  { controller := [(0, [0])], num_people := 1, people_assignments := [],
    last_action_time := 0, consecutive_no_ops := 0, max_consecutive_no_ops := 5 }

/-- Snapshot where only job 1 is legal, the no-op action is illegal, and the
single qualified person is busy until time 10. -/
def envB : Env :=
  { jobs := 2, machines := 1, instance_matrix := [[(0, 5)], [(0, 5)]],
    todo_time_step_job := [0, 0], needed_machine_jobs := [0, 0],
    time_until_available_machine := [0], max_time_op := 5,
    current_time_step := 0, action_mask := [false, true, false] }

def stB : AgentState :=
  { controller := [(0, [0])], num_people := 1,
    people_assignments := [(0, ⟨0, 10, 42⟩)],
    last_action_time := 0, consecutive_no_ops := 0, max_consecutive_no_ops := 5 }

/-- A controller state whose only person is qualified for machine 1 only,
making machine 0 structurally unstaffed. -/
def stBad : AgentState :=
  { controller := [(0, [1])], num_people := 1, people_assignments := [],
    last_action_time := 0, consecutive_no_ops := 0, max_consecutive_no_ops := 5 }

/-- A snapshot with `max_time_op = 0` (every divisor of the unguarded
heuristics vanishes) and a pending second operation on a busy machine. -/
def envDiv0 : Env :=
  { jobs := 1, machines := 2, instance_matrix := [[(0, 0), (1, 0)]],
    todo_time_step_job := [0], needed_machine_jobs := [0],
    time_until_available_machine := [5, 5], max_time_op := 0,
    current_time_step := 0, action_mask := [true, true] }

/-! ## Claim theorems -/

/-- C5: in each of the three progress regimes, the hybrid agent's
six-heuristic weight vector and the controller agent's seven-term weight
vector each sum to exactly 1. -/
theorem claim5_weight_normalization :
    ∀ progress : ℚ,
      hybridWeightSum (hybridDynamicWeights progress) = 1 ∧
        controllerWeightSum (controllerWeights progress) = 1 := by
  intro p
  constructor <;>
    simp only [hybridWeightSum, hybridDynamicWeights,
      controllerWeightSum, controllerWeights] <;>
    split_ifs <;> norm_num

/-- C6 (divergence): the shortest-processing-time, work-remaining and
flow-continuity heuristics hit an unguarded zero divisor when
`max_time_op = 0` and fail (`none` = `ZeroDivisionError`) instead of
returning a neutral value; only the machine-utilization heuristic guards
its divisor and returns the neutral 1.0. -/
theorem claim6_divzero_behaviour :
    shortestProcessingTimeScore 3 0 = none ∧
      workRemainingScore envDiv0 0 = none ∧
      flowContinuityScore envDiv0 0 0 = none ∧
      machineUtilizationScore envDiv0 0 = some 1 := by
  refine ⟨by norm_num [shortestProcessingTimeScore], ?_, ?_, ?_⟩
  · norm_num [workRemainingScore, envDiv0]
  · norm_num [flowContinuityScore, envDiv0, instOp, machineAvail, todoAt]
  · norm_num [machineUtilizationScore, envDiv0]

/-- C10: `_get_resource_utilization` always reports a zero average person
wait (the wait accumulator only ever adds `max(0, end_time - t)` for
assignments with `end_time ≤ t`), so the deliberate-wait deferral guard of
the decision function is equivalent to `person_utilization > 0.8` alone. -/
theorem claim10_avg_wait_zero :
    (∀ (st : AgentState) (t : ℚ), (getResourceUtilization st t).avg_person_wait = 0) ∧
      (∀ (env : Env) (st : AgentState) (t : ℚ),
        deferralCond env st t = true ↔
          (getResourceUtilization st t).person_utilization > 4 / 5) := by
  have hwait : ∀ (st : AgentState) (t : ℚ),
      (getResourceUtilization st t).avg_person_wait = 0 := by
    intro st t
    have hsum : ∀ x ∈ (st.people_assignments.filter
        (fun p => !decide (p.2.end_time > t))).map
          (fun p => max 0 (p.2.end_time - t)), x = 0 := by
      intro x hx
      obtain ⟨p, hp, hpx⟩ := List.mem_map.mp hx
      have hle : p.2.end_time ≤ t := by
        have hmem := List.of_mem_filter hp
        simp only [Bool.not_eq_true', decide_eq_false_iff_not, not_lt] at hmem
        exact hmem
      rw [← hpx]
      exact max_eq_left (by linarith)
    simp only [getResourceUtilization]
    rw [List.sum_eq_zero hsum]
    split <;> simp
  refine ⟨hwait, fun env st t => ?_⟩
  have h2 : (getResourceUtilization st t).avg_person_wait ≤
      maxAcceptableWait env * (1 / 2) := by
    rw [hwait st t]
    have h1 : (1 : ℚ) ≤ maxAcceptableWait env := le_max_right _ _
    linarith
  simp only [deferralCond, Bool.and_eq_true, decide_eq_true_eq]
  exact ⟨fun h => h.1, fun h => ⟨h, h2⟩⟩

/-- The successor state of the first decision on `envA`/`stA`. -/
def stAafter : AgentState :=
  { controller := [(0, [0])], num_people := 1,
    people_assignments := [(0, ⟨0, 2, 0⟩)],
    last_action_time := 0, consecutive_no_ops := 0, max_consecutive_no_ops := 5 }

theorem controllerCall_envA_eval : controllerCall envA stA = .ok (0, stAafter) := by
  norm_num [controllerCall, envA, stA, stAafter, preprocess, cleanupExpired,
    computeJobs, computeJobsAux, legalIncomplete, legalAt, todoAt, numOps,
    instOp, nextMachine, findBestCombination, getEarliestAvailablePerson,
    qualifiedAvail, dictLookup, minByD, selectAction, immediateJobs, maxByD,
    commitAssignment, dictInsert, machineAvail, noopFallback, trulyIncompleteJobs,
    List.range_succ, List.range_zero, List.filterMap_cons, List.filterMap_nil,
    List.filter_cons, List.filter_nil, List.foldl_cons, List.foldl_nil,
    List.find?_cons, List.find?_nil, List.getD_cons_zero, List.getD_cons_succ,
    List.headD, max_def]

/-- C1: whenever the mask is well-sized and some legal, truly-incomplete job
exists, a successful decision returns a job index, except through the
bounded deliberate-deferral branch (high utilization with short average
wait), which increments the consecutive-no-op counter from strictly below
the cap (so the counter never exceeds the cap of 5, past which a job is
forced); and when the feasibility computation yields no candidates at all
while truly-incomplete legal jobs exist, the selection tail force-selects
the first such job. -/
theorem claim1_progress_guarantee :
    (∀ (env : Env) (st : AgentState) (a : Nat) (st' : AgentState),
      env.action_mask.length = env.jobs + 1 →
      (∃ i, i < env.jobs ∧ legalIncomplete env i = true) →
      controllerCall env st = .ok (a, st') →
      a < env.jobs ∨
        (deferralCond env (preprocess env st) env.current_time_step = true ∧
          (preprocess env st).consecutive_no_ops < st.max_consecutive_no_ops ∧
          st'.consecutive_no_ops = (preprocess env st).consecutive_no_ops + 1 ∧
          st'.consecutive_no_ops ≤ st.max_consecutive_no_ops))
    ∧ (∀ (env : Env) (st : AgentState) (t : ℚ) (al : List Nat),
      trulyIncompleteJobs env al ≠ [] →
      selectAction env st t al [] = ((trulyIncompleteJobs env al).headD 0, st)) := by
  constructor
  · intro env st a st' hmask hjob hok
    obtain ⟨i, hi, hleg⟩ := hjob
    simp only [controllerCall] at hok
    rw [if_neg (by simp [hmask])] at hok
    rcases hcj : computeJobs env (preprocess env st) env.current_time_step
      with m | ⟨al, av⟩ <;> rw [hcj] at hok
    · exact absurd hok (by simp)
    · injection hok with hok
      have hcov := computeJobsAux_covers env (preprocess env st)
        env.current_time_step (List.range env.jobs) [] [] al av hcj i
        (List.mem_range.mpr hi) hleg
      obtain ⟨hial, info, hiav⟩ := hcov
      rcases selectAction_spec env (preprocess env st) env.current_time_step al av
        with ⟨hav, _⟩ | ⟨x, hxav, hsel⟩ | ⟨_, hdef, hlt, hsel⟩
      · exact absurd (hav ▸ hiav) (by simp)
      · left
        rw [hsel] at hok
        rcases computeJobsAux_av_elim env (preprocess env st) env.current_time_step
          (List.range env.jobs) [] [] al av hcj x hxav with hmem | ⟨hx1, _, _⟩
        · exact absurd hmem (by simp)
        · have : a = x.1 := (Prod.mk.injEq _ _ _ _ ▸ hok).1.symm
          rw [this]
          exact List.mem_range.mp hx1
      · right
        rw [hsel] at hok
        have ha : a = noopFallback env := (Prod.mk.injEq _ _ _ _ ▸ hok).1.symm
        have hst : st' = { preprocess env st with
            consecutive_no_ops := (preprocess env st).consecutive_no_ops + 1 } :=
          (Prod.mk.injEq _ _ _ _ ▸ hok).2.symm
        have hmax : (preprocess env st).max_consecutive_no_ops =
            st.max_consecutive_no_ops := rfl
        refine ⟨hdef, hmax ▸ hlt, by rw [hst], ?_⟩
        rw [hst]
        simp only []
        omega
  · intro env st t al htr
    have hal : al ≠ [] := by
      intro h
      rw [h] at htr
      exact htr (by simp [trulyIncompleteJobs])
    unfold selectAction
    rw [if_pos (by simp : ([] : List (Nat × JobInfo)).isEmpty = true)]
    rw [if_pos (fun h => hal (List.isEmpty_iff.mp h))]
    rw [if_pos (fun h => htr (List.isEmpty_iff.mp h))]

/-- Witness for C1 at a concrete decision point: on `envA`/`stA` the single
legal incomplete job 0 is selected (a job index, not no-op), and the forced
first-incomplete-job branch fires on an empty candidate list. -/
theorem claim1_witness :
    (envA.action_mask.length = envA.jobs + 1 ∧
      (∃ i, i < envA.jobs ∧ legalIncomplete envA i = true) ∧
      controllerCall envA stA = .ok (0, stAafter) ∧
      (0 < envA.jobs ∨
        (deferralCond envA (preprocess envA stA) envA.current_time_step = true ∧
          (preprocess envA stA).consecutive_no_ops < stA.max_consecutive_no_ops ∧
          stAafter.consecutive_no_ops = (preprocess envA stA).consecutive_no_ops + 1 ∧
          stAafter.consecutive_no_ops ≤ stA.max_consecutive_no_ops))) ∧
    (trulyIncompleteJobs envA [0] ≠ [] ∧
      selectAction envA stA 0 [0] [] = ((trulyIncompleteJobs envA [0]).headD 0, stA)) := by
  have h1 : envA.action_mask.length = envA.jobs + 1 := by norm_num [envA]
  have h2 : ∃ i, i < envA.jobs ∧ legalIncomplete envA i = true :=
    ⟨0, by norm_num [envA], by
      norm_num [legalIncomplete, legalAt, todoAt, numOps, instOp, envA]⟩
  have h4 : trulyIncompleteJobs envA [0] ≠ [] := by
    norm_num [trulyIncompleteJobs, todoAt, numOps, instOp, envA,
      List.filter_cons, List.filter_nil]
  exact ⟨⟨h1, h2, controllerCall_envA_eval,
      claim1_progress_guarantee.1 envA stA 0 stAafter h1 h2 controllerCall_envA_eval⟩,
    h4, claim1_progress_guarantee.2 envA stA 0 [0] h4⟩

/-- C3: when some legal incomplete job's next machine has no qualified
person in the controller table, a well-masked decision raises the fatal
configuration error carrying such a machine's id; when every legal
incomplete job's machine has a qualified person, the decision succeeds. -/
theorem claim3_fatal_config_detection :
    (∀ (env : Env) (st : AgentState),
      env.action_mask.length = env.jobs + 1 →
      (∃ i, i < env.jobs ∧ legalIncomplete env i = true ∧
        qualifiedIds st.controller (nextMachine env i) = []) →
      ∃ m, controllerCall env st = .error m ∧
        qualifiedIds st.controller m = [] ∧
        ∃ i, i < env.jobs ∧ legalIncomplete env i = true ∧ nextMachine env i = m)
    ∧ (∀ (env : Env) (st : AgentState),
      env.action_mask.length = env.jobs + 1 →
      (∀ i, i < env.jobs → legalIncomplete env i = true →
        qualifiedIds st.controller (nextMachine env i) ≠ []) →
      ∃ a st', controllerCall env st = .ok (a, st')) := by
  constructor
  · intro env st hmask hbad
    obtain ⟨i, hi, hleg, hq⟩ := hbad
    obtain ⟨m, hm⟩ := computeJobsAux_error_exists env (preprocess env st)
      env.current_time_step (List.range env.jobs) [] []
      ⟨i, List.mem_range.mpr hi, hleg, hq⟩
    obtain ⟨hqm, i', hi', hleg', hnm⟩ := computeJobsAux_error_elim env
      (preprocess env st) env.current_time_step (List.range env.jobs) [] [] m hm
    refine ⟨m, ?_, hqm, i', List.mem_range.mp hi', hleg', hnm⟩
    simp only [controllerCall]
    rw [if_neg (by simp [hmask])]
    unfold computeJobs
    rw [hm]
  · intro env st hmask hgood
    obtain ⟨⟨al, av⟩, hres⟩ := computeJobsAux_ok_exists env (preprocess env st)
      env.current_time_step (List.range env.jobs) [] []
      (fun i hi hleg => hgood i (List.mem_range.mp hi) hleg)
    refine ⟨(selectAction env (preprocess env st) env.current_time_step al av).1,
      (selectAction env (preprocess env st) env.current_time_step al av).2, ?_⟩
    simp only [controllerCall]
    rw [if_neg (by simp [hmask])]
    unfold computeJobs
    rw [hres]

/-- Witness for C3: on `envA` with the misconfigured `stBad` (the only
person is qualified for machine 1, never machine 0) the call raises; on the
properly staffed `stA` it succeeds. -/
theorem claim3_witness :
    ((envA.action_mask.length = envA.jobs + 1) ∧
      (∃ i, i < envA.jobs ∧ legalIncomplete envA i = true ∧
        qualifiedIds stBad.controller (nextMachine envA i) = []) ∧
      (∃ m, controllerCall envA stBad = .error m ∧
        qualifiedIds stBad.controller m = [] ∧
        ∃ i, i < envA.jobs ∧ legalIncomplete envA i = true ∧ nextMachine envA i = m)) ∧
    ((∀ i, i < envA.jobs → legalIncomplete envA i = true →
        qualifiedIds stA.controller (nextMachine envA i) ≠ []) ∧
      ∃ a st', controllerCall envA stA = .ok (a, st')) := by
  have h1 : envA.action_mask.length = envA.jobs + 1 := by norm_num [envA]
  have h2 : ∃ i, i < envA.jobs ∧ legalIncomplete envA i = true ∧
      qualifiedIds stBad.controller (nextMachine envA i) = [] := by
    refine ⟨0, by norm_num [envA], ?_, ?_⟩
    · norm_num [legalIncomplete, legalAt, todoAt, numOps, instOp, envA]
    · norm_num [qualifiedIds, stBad, nextMachine, instOp, todoAt, envA,
        List.filter_cons, List.filter_nil]
  have h3 : ∀ i, i < envA.jobs → legalIncomplete envA i = true →
      qualifiedIds stA.controller (nextMachine envA i) ≠ [] := by
    intro i hi _
    have hz : i = 0 := by
      have : envA.jobs = 1 := by norm_num [envA]
      omega
    subst hz
    norm_num [qualifiedIds, stA, nextMachine, instOp, todoAt, envA,
      List.filter_cons, List.filter_nil]
  exact ⟨⟨h1, h2, claim3_fatal_config_detection.1 envA stBad h1 h2⟩,
    h3, claim3_fatal_config_detection.2 envA stA h1 h3⟩

/-- C4: a successful well-masked decision preserves the one-assignment-per-
person shape of the table, and either leaves the (cleaned) table unchanged
or commits exactly one assignment whose start time is at least the current
clock and at least the chosen person's previous assignment end — so the
person's successive busy intervals never overlap. -/
theorem claim4_no_double_booking :
    (∀ (env : Env) (st : AgentState) (a : Nat) (st' : AgentState),
      env.action_mask.length = env.jobs + 1 →
      controllerCall env st = .ok (a, st') →
      (dictKeys st.people_assignments).Nodup →
      (dictKeys st'.people_assignments).Nodup)
    ∧ (∀ (env : Env) (st : AgentState) (a : Nat) (st' : AgentState),
      env.action_mask.length = env.jobs + 1 →
      controllerCall env st = .ok (a, st') →
      st'.people_assignments = (preprocess env st).people_assignments ∨
      ∃ info,
        findBestCombination env (preprocess env st) a env.current_time_step = some info ∧
        st'.people_assignments =
          dictInsert (preprocess env st).people_assignments info.person_id
            ⟨info.machine_id, info.end_time, a⟩ ∧
        env.current_time_step ≤ info.start_time ∧
        (∀ old, dictLookup (preprocess env st).people_assignments info.person_id =
          some old → old.end_time ≤ info.start_time)) := by
  have hmain : ∀ (env : Env) (st : AgentState) (a : Nat) (st' : AgentState),
      env.action_mask.length = env.jobs + 1 →
      controllerCall env st = .ok (a, st') →
      st'.people_assignments = (preprocess env st).people_assignments ∨
      ∃ info,
        findBestCombination env (preprocess env st) a env.current_time_step = some info ∧
        st'.people_assignments =
          dictInsert (preprocess env st).people_assignments info.person_id
            ⟨info.machine_id, info.end_time, a⟩ ∧
        env.current_time_step ≤ info.start_time ∧
        (∀ old, dictLookup (preprocess env st).people_assignments info.person_id =
          some old → old.end_time ≤ info.start_time) := by
    intro env st a st' hmask hok
    simp only [controllerCall] at hok
    rw [if_neg (by simp [hmask])] at hok
    rcases hcj : computeJobs env (preprocess env st) env.current_time_step
      with m | ⟨al, av⟩ <;> rw [hcj] at hok
    · exact absurd hok (by simp)
    · injection hok with hok
      rcases selectAction_spec env (preprocess env st) env.current_time_step al av
        with ⟨_, hsel⟩ | ⟨x, hxav, hsel⟩ | ⟨_, _, _, hsel⟩
      · rw [hsel] at hok
        left
        rw [← (Prod.mk.inj hok).2]
      · rw [hsel] at hok
        right
        have ha : x.1 = a := (Prod.mk.inj hok).1
        have hst : commitAssignment (preprocess env st) x.1 x.2 = st' :=
          (Prod.mk.inj hok).2
        rcases computeJobsAux_av_elim env (preprocess env st) env.current_time_step
          (List.range env.jobs) [] [] al av hcj x hxav with hmem | ⟨_, _, hfb⟩
        · exact absurd hmem (by simp)
        · obtain ⟨_, _, _, hts, hold⟩ :=
            findBest_some_elim env (preprocess env st) x.1 env.current_time_step x.2 hfb
          refine ⟨x.2, ha ▸ hfb, ?_, hts, hold⟩
          rw [← hst, ← ha]
          rfl
      · rw [hsel] at hok
        left
        rw [← (Prod.mk.inj hok).2]
  constructor
  · intro env st a st' hmask hok hnp
    have hclean : (dictKeys (preprocess env st).people_assignments).Nodup :=
      dictKeys_filter_nodup _ _ hnp
    rcases hmain env st a st' hmask hok with heq | ⟨info, _, heq, _, _⟩
    · rw [heq]; exact hclean
    · rw [heq]; exact dictKeys_dictInsert_nodup _ _ _ hclean
  · exact hmain

/-- Witness for C4 at `envA`/`stA`: the decision commits person 0 for job 0
and the key list stays duplicate-free. -/
theorem claim4_witness :
    (envA.action_mask.length = envA.jobs + 1 ∧
      controllerCall envA stA = .ok (0, stAafter) ∧
      (dictKeys stA.people_assignments).Nodup ∧
      (dictKeys stAafter.people_assignments).Nodup) ∧
    (stAafter.people_assignments = (preprocess envA stA).people_assignments ∨
      ∃ info,
        findBestCombination envA (preprocess envA stA) 0 envA.current_time_step = some info ∧
        stAafter.people_assignments =
          dictInsert (preprocess envA stA).people_assignments info.person_id
            ⟨info.machine_id, info.end_time, 0⟩ ∧
        envA.current_time_step ≤ info.start_time ∧
        (∀ old, dictLookup (preprocess envA stA).people_assignments info.person_id =
          some old → old.end_time ≤ info.start_time)) := by
  have h1 : envA.action_mask.length = envA.jobs + 1 := by norm_num [envA]
  have hnp : (dictKeys stA.people_assignments).Nodup := by
    norm_num [dictKeys, stA]
  exact ⟨⟨h1, controllerCall_envA_eval, hnp,
      claim4_no_double_booking.1 envA stA 0 stAafter h1 controllerCall_envA_eval hnp⟩,
    claim4_no_double_booking.2 envA stA 0 stAafter h1 controllerCall_envA_eval⟩

/-- C7: when some feasible candidate can start within 0.1 time units of the
clock, a successful well-masked decision returns the best-scored such
immediate candidate and has already written the chosen person's assignment
(machine, end time, job) into the table. -/
theorem claim7_immediate_start_commit :
    ∀ (env : Env) (st : AgentState) (a : Nat) (st' : AgentState)
      (al : List Nat) (av : List (Nat × JobInfo)),
      env.action_mask.length = env.jobs + 1 →
      computeJobs env (preprocess env st) env.current_time_step = .ok (al, av) →
      immediateJobs env.current_time_step av ≠ [] →
      controllerCall env st = .ok (a, st') →
      ∃ info, (a, info) ∈ immediateJobs env.current_time_step av ∧
        (∀ x ∈ immediateJobs env.current_time_step av,
          calculateJobScoreEnhanced env (preprocess env st) x.1 env.current_time_step x.2 ≤
            calculateJobScoreEnhanced env (preprocess env st) a env.current_time_step info) ∧
        dictLookup st'.people_assignments info.person_id =
          some ⟨info.machine_id, info.end_time, a⟩ := by
  intro env st a st' al av hmask hcomp himm hok
  simp only [controllerCall] at hok
  rw [if_neg (by simp [hmask]), hcomp] at hok
  injection hok with hok
  have hav : ¬ av.isEmpty = true := by
    intro h
    rw [List.isEmpty_iff.mp h] at himm
    exact himm (by simp [immediateJobs])
  simp only [selectAction] at hok
  rw [if_neg hav, if_pos (fun h => himm (List.isEmpty_iff.mp h))] at hok
  set score := fun p : Nat × JobInfo =>
    calculateJobScoreEnhanced env (preprocess env st) p.1 env.current_time_step p.2
    with hscore
  set best := maxByD score (immediateJobs env.current_time_step av) (0, default)
    with hbest
  have ha : best.1 = a := (Prod.mk.inj hok).1
  have hst : commitAssignment (preprocess env st) best.1 best.2 = st' :=
    (Prod.mk.inj hok).2
  refine ⟨best.2, ?_, ?_, ?_⟩
  · rw [← ha]
    exact maxByD_mem score _ (0, default) himm
  · intro x hx
    have := maxByD_is_max score (immediateJobs env.current_time_step av) (0, default) x hx
    rw [← ha]
    exact this
  · rw [← hst, ← ha]
    exact dictLookup_dictInsert_self _ _ _

/-- Witness for C7 at `envA`/`stA`: job 0 can start at once (start 0 within
0.1 of clock 0) and, on return, person 0 is booked through time 2. -/
theorem claim7_witness :
    envA.action_mask.length = envA.jobs + 1 ∧
    computeJobs envA (preprocess envA stA) envA.current_time_step =
      .ok ([0], [(0, ⟨0, 0, 0, 2, 0⟩)]) ∧
    immediateJobs envA.current_time_step [(0, ⟨0, 0, 0, 2, 0⟩)] ≠ [] ∧
    ∃ info, (0, info) ∈ immediateJobs envA.current_time_step [(0, ⟨0, 0, 0, 2, 0⟩)] ∧
      (∀ x ∈ immediateJobs envA.current_time_step [(0, ⟨0, 0, 0, 2, 0⟩)],
        calculateJobScoreEnhanced envA (preprocess envA stA) x.1 envA.current_time_step x.2 ≤
          calculateJobScoreEnhanced envA (preprocess envA stA) 0 envA.current_time_step info) ∧
      dictLookup stAafter.people_assignments info.person_id =
        some ⟨info.machine_id, info.end_time, 0⟩ := by
  have h1 : envA.action_mask.length = envA.jobs + 1 := by norm_num [envA]
  have h2 : computeJobs envA (preprocess envA stA) envA.current_time_step =
      .ok ([0], [(0, ⟨0, 0, 0, 2, 0⟩)]) := by
    norm_num [computeJobs, computeJobsAux, envA, stA, preprocess, cleanupExpired,
      legalIncomplete, legalAt, todoAt, numOps, instOp, nextMachine,
      findBestCombination, getEarliestAvailablePerson, qualifiedAvail,
      dictLookup, minByD, machineAvail, List.range_succ, List.range_zero,
      List.filterMap_cons, List.filterMap_nil, List.filter_cons, List.filter_nil,
      List.find?_cons, List.find?_nil, List.foldl_cons, List.foldl_nil,
      List.getD_cons_zero, List.getD_cons_succ, max_def]
  have h3 : immediateJobs envA.current_time_step [(0, ⟨0, 0, 0, 2, 0⟩)] ≠ [] := by
    norm_num [immediateJobs, envA, List.filter_cons, List.filter_nil]
  exact ⟨h1, h2, h3,
    claim7_immediate_start_commit envA stA 0 stAafter [0] [(0, ⟨0, 0, 0, 2, 0⟩)]
      h1 h2 h3 controllerCall_envA_eval⟩

theorem legalIncomplete_legal (env : Env) (i : Nat)
    (h : legalIncomplete env i = true) : legalAt env i = true := by
  unfold legalIncomplete at h
  exact (Bool.and_eq_true _ _ ▸ (Bool.and_eq_true _ _ ▸ h).1).1

theorem noopFallback_of_legal (env : Env) (h : legalAt env env.jobs = true) :
    noopFallback env = env.jobs := by
  unfold noopFallback
  rw [if_pos h]

theorem mapM_pair_mem {β γ : Type} (g : γ → Option β) (l : List γ) :
    ∀ (ys : List (γ × β)),
      l.mapM (fun j => (g j).map (fun s => (j, s))) = some ys →
      ∀ x ∈ ys, x.1 ∈ l := by
  induction l with
  | nil =>
    intro ys h x hx
    simp only [List.mapM_nil, Option.pure_def, Option.some.injEq] at h
    subst h
    simp at hx
  | cons a l ih =>
    intro ys h x hx
    rw [List.mapM_cons] at h
    rcases hga : g a with _ | s <;> rw [hga] at h
    · simp at h
    · rcases hrec : l.mapM (fun j => (g j).map (fun s => (j, s)))
        with _ | ys' <;> rw [hrec] at h
      · simp at h
      · simp at h
        subst h
        rcases List.mem_cons.mp hx with rfl | hx
        · simp
        · exact List.mem_cons_of_mem _ (ih ys' hrec x hx)

theorem mapM_pair_ne_nil {β γ : Type} (g : γ → Option β) (l : List γ)
    (ys : List (γ × β)) (hl : l ≠ [])
    (h : l.mapM (fun j => (g j).map (fun s => (j, s))) = some ys) : ys ≠ [] := by
  cases l with
  | nil => exact absurd rfl hl
  | cons a l =>
    rw [List.mapM_cons] at h
    rcases hga : g a with _ | s <;> rw [hga] at h
    · simp at h
    · rcases hrec : l.mapM (fun j => (g j).map (fun s => (j, s)))
        with _ | ys' <;> rw [hrec] at h
      · simp at h
      · simp at h
        rw [← h]
        simp

theorem lookahead_fold_mem (l : List Nat) (scored : List (Nat × ℚ)) :
    ∀ b : Nat × Option ℚ,
      (∀ x ∈ scored, x.1 ∈ l) → b.1 ∈ l →
      (scored.foldl (fun b p =>
        match b.2 with
        | none => (p.1, some p.2)
        | some bs => if p.2 > bs then (p.1, some p.2) else b) b).1 ∈ l := by
  induction scored with
  | nil => intro b _ hb; exact hb
  | cons x xs ih =>
    intro b hsc hb
    simp only [List.foldl_cons]
    refine ih _ (fun y hy => hsc y (List.mem_cons_of_mem _ hy)) ?_
    have hx : x.1 ∈ l := hsc x (by simp)
    rcases b with ⟨b1, _ | bs⟩
    · exact hx
    · dsimp only
      split
      · exact hx
      · exact hb

/-- C2 fails as stated: at this well-masked decision point of the
controller agent (job 1 legal and incomplete, no-op illegal, the single
qualified person busy until time 10, utilization 100%), the deliberate-wait
branch falls back to action 0, which the mask marks illegal. -/
theorem claim2_counterexample :
    (controllerCall envB stB).map Prod.fst = Except.ok 0 ∧
      envB.action_mask.getD 0 false = false ∧
      envB.action_mask.length = envB.jobs + 1 ∧
      legalIncomplete envB 1 = true := by
  refine ⟨?_, by norm_num [envB], by norm_num [envB], ?_⟩
  · norm_num [controllerCall, envB, stB, preprocess, cleanupExpired,
      computeJobs, computeJobsAux, legalIncomplete, legalAt, todoAt, numOps,
      instOp, nextMachine, findBestCombination, getEarliestAvailablePerson,
      qualifiedAvail, dictLookup, minByD, selectAction, immediateJobs, maxByD,
      commitAssignment, dictInsert, machineAvail, noopFallback,
      trulyIncompleteJobs, getResourceUtilization, deferralCond,
      maxAcceptableWait, Except.map, List.range_succ, List.range_zero,
      List.filterMap_cons, List.filterMap_nil, List.filter_cons,
      List.filter_nil, List.find?_cons, List.find?_nil, List.foldl_cons,
      List.foldl_nil, List.getD_cons_zero, List.getD_cons_succ, List.headD,
      max_def]
  · norm_num [legalIncomplete, legalAt, todoAt, numOps, instOp, envB]

theorem noopFallback_le (env : Env) : noopFallback env ≤ env.jobs := by
  unfold noopFallback
  split
  · exact le_rfl
  · exact Nat.zero_le _

theorem noopFallback_legal (env : Env) (h : legalAt env env.jobs = true) :
    legalAt env (noopFallback env) = true := by
  rw [noopFallback_of_legal env h]
  exact h

/-- C2 amended: every agent's returned action lies in `[0, jobs]`
unconditionally; and whenever the mask is well-sized and marks the no-op
action legal, the returned action is mask-legal (the defensive fallbacks
return job 0 in place of an illegal no-op, which the counterexample shows
can be mask-illegal). -/
theorem claim2_amended_legality :
    (∀ (env : Env) (r : ℚ) (a : Nat),
      hybridCall env r = some a →
      a ≤ env.jobs ∧
        (env.action_mask.length = env.jobs + 1 →
          legalAt env env.jobs = true → legalAt env a = true))
    ∧ (∀ (env : Env) (a : Nat),
      lookaheadCall env = some a →
      a ≤ env.jobs ∧
        (env.action_mask.length = env.jobs + 1 →
          legalAt env env.jobs = true → legalAt env a = true))
    ∧ (∀ (env : Env) (st : AgentState) (a : Nat) (st' : AgentState),
      controllerCall env st = .ok (a, st') →
      a ≤ env.jobs ∧
        (env.action_mask.length = env.jobs + 1 →
          legalAt env env.jobs = true → legalAt env a = true)) := by
  have hfilter_mem : ∀ (env : Env) (j : Nat),
      j ∈ (List.range env.jobs).filter (fun i => legalAt env i) →
      j ≤ env.jobs ∧
        (env.action_mask.length = env.jobs + 1 →
          legalAt env env.jobs = true → legalAt env j = true) := by
    intro env j hj
    obtain ⟨hr, hl⟩ := List.mem_filter.mp hj
    exact ⟨le_of_lt (List.mem_range.mp hr), fun _ _ => hl⟩
  refine ⟨?_, ?_, ?_⟩
  · intro env r a hcall
    simp only [hybridCall] at hcall
    by_cases h1 : (env.action_mask.dropLast.all (fun b => !b) &&
        env.action_mask.getLastD false) = true
    · rw [if_pos h1] at hcall
      injection hcall with hcall
      subst hcall
      exact ⟨le_rfl, fun _ hnoop => hnoop⟩
    · rw [if_neg h1] at hcall
      by_cases h2 : ((List.range env.jobs).filter (fun i => legalAt env i)).isEmpty = true
      · rw [if_pos h2] at hcall
        injection hcall with hcall
        subst hcall
        exact ⟨noopFallback_le env, fun _ hnoop => noopFallback_legal env hnoop⟩
      · rw [if_neg h2] at hcall
        obtain ⟨scored, hsc, hk⟩ := Option.bind_eq_some.mp hcall
        by_cases h3 : (legalAt env env.jobs &&
            decide (hybridProgress env < 3 / 10) && decide (r < 1 / 20)) = true
        · rw [if_pos h3] at hk
          injection hk with hk
          subst hk
          exact ⟨le_rfl, fun _ hnoop => hnoop⟩
        · rw [if_neg h3] at hk
          injection hk with hk
          subst hk
          refine hfilter_mem env _ ?_
          refine mapM_pair_mem _ _ scored hsc _ ?_
          refine maxByD_mem _ scored (0, 0) ?_
          exact mapM_pair_ne_nil _ _ scored
            (fun h => h2 (by rw [h]; rfl)) hsc
  · intro env a hcall
    simp only [lookaheadCall] at hcall
    by_cases h2 : ((List.range env.jobs).filter (fun i => legalAt env i)).isEmpty = true
    · rw [if_pos h2] at hcall
      injection hcall with hcall
      subst hcall
      exact ⟨noopFallback_le env, fun _ hnoop => noopFallback_legal env hnoop⟩
    · rw [if_neg h2] at hcall
      have hne : (List.range env.jobs).filter (fun i => legalAt env i) ≠ [] :=
        fun h => h2 (by rw [h]; rfl)
      by_cases h3 : ((List.range env.jobs).filter (fun i => legalAt env i)).length = 1
      · rw [if_pos h3] at hcall
        injection hcall with hcall
        subst hcall
        exact hfilter_mem env _ (headD_mem _ 0 hne)
      · rw [if_neg h3] at hcall
        obtain ⟨scored, hsc, hk⟩ := Option.bind_eq_some.mp hcall
        injection hk with hk
        subst hk
        refine hfilter_mem env _ ?_
        refine lookahead_fold_mem _ scored _ (mapM_pair_mem _ _ scored hsc) ?_
        exact headD_mem _ 0 hne
  · intro env st a st' hok
    by_cases hm : env.action_mask.length = env.jobs + 1
    · simp only [controllerCall] at hok
      rw [if_neg (by simp [hm])] at hok
      rcases hcj : computeJobs env (preprocess env st) env.current_time_step
        with m | ⟨al, av⟩ <;> rw [hcj] at hok
      · exact absurd hok (by simp)
      · injection hok with hok
        have hal_elim := computeJobsAux_al_elim env (preprocess env st)
          env.current_time_step (List.range env.jobs) [] [] al av hcj
        have hav_elim := computeJobsAux_av_elim env (preprocess env st)
          env.current_time_step (List.range env.jobs) [] [] al av hcj
        rcases selectAction_spec env (preprocess env st) env.current_time_step al av
          with ⟨_, hsel⟩ | ⟨x, hxav, hsel⟩ | ⟨_, _, _, hsel⟩
        · rw [hsel] at hok
          have ha := (Prod.mk.inj hok).1
          by_cases htr : (trulyIncompleteJobs env al).isEmpty = true
          · rw [if_pos htr] at ha
            subst ha
            exact ⟨noopFallback_le env, fun _ hnoop => noopFallback_legal env hnoop⟩
          · rw [if_neg htr] at ha
            subst ha
            have hmem : (trulyIncompleteJobs env al).headD 0 ∈ trulyIncompleteJobs env al :=
              headD_mem _ 0 (fun h => htr (by rw [h]; rfl))
            have hmemal : (trulyIncompleteJobs env al).headD 0 ∈ al :=
              List.mem_of_mem_filter hmem
            rcases hal_elim _ hmemal with hc | ⟨hrange, hleg⟩
            · exact absurd hc (by simp)
            · exact ⟨le_of_lt (List.mem_range.mp hrange),
                fun _ _ => legalIncomplete_legal env _ hleg⟩
        · rw [hsel] at hok
          have ha := (Prod.mk.inj hok).1
          subst ha
          rcases hav_elim x hxav with hc | ⟨hrange, hleg, _⟩
          · exact absurd hc (by simp)
          · exact ⟨le_of_lt (List.mem_range.mp hrange),
              fun _ _ => legalIncomplete_legal env _ hleg⟩
        · rw [hsel] at hok
          have ha := (Prod.mk.inj hok).1
          subst ha
          exact ⟨noopFallback_le env, fun _ hnoop => noopFallback_legal env hnoop⟩
    · simp only [controllerCall] at hok
      rw [if_pos hm] at hok
      injection hok with hok
      have ha : a = env.jobs := ((Prod.mk.inj hok).1).symm
      subst ha
      exact ⟨le_rfl, fun hmask _ => absurd hmask hm⟩

/-- Witness for the amended C2 at `envA`/`stA`: all three agents return an
in-range action, and at this well-masked, no-op-legal decision point a
mask-legal one. -/
theorem claim2_witness :
    (hybridCall envA (1 / 2) = some 0 ∧ 0 ≤ envA.jobs ∧ legalAt envA 0 = true) ∧
    (lookaheadCall envA = some 0 ∧ 0 ≤ envA.jobs ∧ legalAt envA 0 = true) ∧
    (controllerCall envA stA = .ok (0, stAafter) ∧ 0 ≤ envA.jobs ∧
      legalAt envA 0 = true) := by
  have h1 : envA.action_mask.length = envA.jobs + 1 := by norm_num [envA]
  have h2 : legalAt envA envA.jobs = true := by norm_num [legalAt, envA]
  have hh : hybridCall envA (1 / 2) = some 0 := by
    norm_num [hybridCall, envA, hybridProgress, hybridJobScore,
      shortestProcessingTimeScore, workRemainingScore, criticalPathScore,
      machineUtilizationScore, bottleneckMachineScore, flowContinuityScore,
      hybridDynamicWeights, legalAt, todoAt, numOps, instOp, neededAt,
      machineAvail, noopFallback, maxByD, List.range_succ, List.range_zero,
      List.filter_cons, List.filter_nil, List.foldl_cons, List.foldl_nil,
      List.getD_cons_zero, List.getD_cons_succ, List.mapM_cons, List.mapM_nil,
      List.mapM.loop, List.reverse_cons, List.reverse_nil, Option.some_bind,
      max_def]
  have hl : lookaheadCall envA = some 0 := by
    norm_num [lookaheadCall, envA, legalAt, List.range_succ, List.range_zero,
      List.filter_cons, List.filter_nil, List.getD_cons_zero,
      List.getD_cons_succ, List.headD]
  exact ⟨⟨hh, (claim2_amended_legality.1 envA (1 / 2) 0 hh).1,
      (claim2_amended_legality.1 envA (1 / 2) 0 hh).2 h1 h2⟩,
    ⟨hl, (claim2_amended_legality.2.1 envA 0 hl).1,
      (claim2_amended_legality.2.1 envA 0 hl).2 h1 h2⟩,
    controllerCall_envA_eval,
    (claim2_amended_legality.2.2 envA stA 0 stAafter controllerCall_envA_eval).1,
    (claim2_amended_legality.2.2 envA stA 0 stAafter controllerCall_envA_eval).2 h1 h2⟩

/-! ## Claims C8 and C9 -/

theorem recordAfterStep_inv (env' : Env) (action : Nat)
    (caa : List (Nat × ActionAssignment)) (sch : List ScheduledTask)
    (recd : List (Nat × Nat)) (hn : recd.Nodup)
    (hlen : sch.length = recd.length) :
    (recordAfterStep env' action caa sch recd).2.1.Nodup ∧
      (recordAfterStep env' action caa sch recd).1.length =
        (recordAfterStep env' action caa sch recd).2.1.length := by
  unfold recordAfterStep
  by_cases ha : action < env'.jobs
  · rw [if_pos ha]
    rcases hl : dictLookup caa action with _ | assignment
    · simp only []
      by_cases hc : ((todoAt env' action : ℤ) - 1 ≥ 0 ∧
          (action, ((todoAt env' action : ℤ) - 1).toNat) ∉ recd)
      · rw [if_pos hc]
        refine ⟨nodup_append_singleton _ _ hn hc.2, ?_⟩
        simp [hlen]
      · rw [if_neg hc]
        exact ⟨hn, hlen⟩
    · simp only []
      by_cases hc : (action, assignment.current_op) ∉ recd
      · rw [if_pos hc]
        refine ⟨nodup_append_singleton _ _ hn hc, ?_⟩
        simp [hlen]
      · rw [if_neg hc]
        exact ⟨hn, hlen⟩
  · rw [if_neg ha]
    exact ⟨hn, hlen⟩

theorem episodeStep_inv (stepFn : Env → Nat → StepOut) (es es' : EpisodeState)
    (d : Bool) (h : episodeStep stepFn es = .ok (es', d))
    (hn : es.recorded.Nodup) (hlen : es.schedule.length = es.recorded.length) :
    es'.recorded.Nodup ∧ es'.schedule.length = es'.recorded.length := by
  simp only [episodeStep] at h
  rcases hc : controllerCall es.env es.agent with m | ⟨a0, st'⟩ <;> rw [hc] at h
  · exact absurd h (by simp)
  · injection h with h
    obtain ⟨hinv1, hinv2⟩ := recordAfterStep_inv
      ((stepFn es.env (validateAction es.env a0)).env)
      (validateAction es.env a0)
      (preStepRecord es.env st' es.caa (validateAction es.env a0))
      es.schedule es.recorded hn hlen
    have hes := (Prod.mk.inj h).1
    rw [← hes]
    exact ⟨hinv1, hinv2⟩

theorem runEpisodeAux_inv (stepFn : Env → Nat → StepOut) (fuel : Nat) :
    ∀ es es' : EpisodeState, runEpisodeAux stepFn fuel es = .ok es' →
      es.recorded.Nodup → es.schedule.length = es.recorded.length →
      es'.recorded.Nodup ∧ es'.schedule.length = es'.recorded.length := by
  induction fuel with
  | zero =>
    intro es es' h hn hlen
    simp only [runEpisodeAux] at h
    injection h with h
    rw [← h]
    exact ⟨hn, hlen⟩
  | succ fuel ih =>
    intro es es' h hn hlen
    simp only [runEpisodeAux] at h
    rcases hc : episodeStep stepFn es with m | ⟨es'', d⟩ <;> rw [hc] at h <;>
      dsimp only at h
    · exact absurd h (by simp)
    · obtain ⟨hn', hlen'⟩ := episodeStep_inv stepFn es es'' d hc hn hlen
      by_cases hd : d = true
      · rw [if_pos hd] at h
        injection h with h
        rw [← h]
        exact ⟨hn', hlen'⟩
      · rw [if_neg hd] at h
        exact ih es'' es' h hn' hlen'

/-- C8: over any completed episode at most one schedule row is recorded per
`(job, operation)` key (the recorded key list is duplicate-free and in
bijection with the schedule), and when the environment advanced a job
without a matching `current_action_assignments` entry the recovery path
appends exactly one synthesized row built from the current clock and the
operation's duration (person 0). -/
theorem claim8_schedule_uniqueness_and_recovery :
    (∀ (stepFn : Env → Nat → StepOut) (env0 : Env) (st0 : AgentState)
        (mk rew : ℚ) (sch : List ScheduledTask) (recd : List (Nat × Nat)),
      runEpisode stepFn env0 st0 = .ok (mk, rew, sch, recd) →
      recd.Nodup ∧ sch.length = recd.length)
    ∧ (∀ (env' : Env) (action : Nat) (caa : List (Nat × ActionAssignment))
        (sch : List ScheduledTask) (recd : List (Nat × Nat)) (op : Nat),
      action < env'.jobs →
      dictLookup caa action = none →
      todoAt env' action = op + 1 →
      (action, op) ∉ recd →
      recordAfterStep env' action caa sch recd =
        (sch ++ [⟨action, (instOp env' action op).1,
            env'.current_time_step - (instOp env' action op).2,
            env'.current_time_step, 0⟩],
          recd ++ [(action, op)], caa)) := by
  constructor
  · intro stepFn env0 st0 mk rew sch recd h
    unfold runEpisode at h
    rcases haux : runEpisodeAux stepFn (env0.jobs * env0.machines * 10)
        { env := env0, agent := st0, schedule := [], recorded := [],
          caa := [], total_reward := 0 } with m | es <;> rw [haux] at h
    · exact absurd h (by simp [Except.map])
    · obtain ⟨hn, hlen⟩ := runEpisodeAux_inv stepFn _ _ es haux
        (by simp) (by simp)
      simp only [Except.map, Except.ok.injEq] at h
      have hsch : es.schedule = sch := by
        have := congrArg (fun q : ℚ × ℚ × List ScheduledTask × List (Nat × Nat) => q.2.2.1) h
        exact this
      have hrecd : es.recorded = recd := by
        have := congrArg (fun q : ℚ × ℚ × List ScheduledTask × List (Nat × Nat) => q.2.2.2) h
        exact this
      rw [← hsch, ← hrecd]
      exact ⟨hn, hlen⟩
  · intro env' action caa sch recd op ha hl ht hn
    simp only [recordAfterStep]
    rw [if_pos ha, hl]
    have hint : (todoAt env' action : ℤ) - 1 = (op : ℤ) := by
      rw [ht]; push_cast; ring
    rw [hint]
    rw [if_pos ⟨Int.natCast_nonneg op, by simpa using hn⟩]
    simp

/-- A one-decision terminating environment: the step completes job 0 and
reports done. -/
def stepA : Env → Nat → StepOut := fun e _ =>
  { env := { e with todo_time_step_job := [1], current_time_step := 2 },
    reward := 1, done := true, truncated := false }

/-- The post-step snapshot used in the recovery-path witness: job 0's
operation index has advanced to 1 and the clock reads 2. -/
def envRec : Env :=
  { envA with todo_time_step_job := [1], current_time_step := 2 }

/-- Witness for C8: a full one-decision episode on `envA`/`stA` records
exactly one row with a duplicate-free key list, and the recovery path
synthesizes the expected row on `envRec`. -/
theorem claim8_witness :
    (runEpisode stepA envA stA =
        .ok (2, 1, [⟨0, 0, 0, 2, 0⟩], [(0, 0)]) ∧
      ([(0, 0)] : List (Nat × Nat)).Nodup ∧
      ([(⟨0, 0, 0, 2, 0⟩ : ScheduledTask)] : List ScheduledTask).length =
        ([(0, 0)] : List (Nat × Nat)).length) ∧
    (0 < envRec.jobs ∧
      dictLookup ([] : List (Nat × ActionAssignment)) 0 = none ∧
      todoAt envRec 0 = 0 + 1 ∧
      (0, 0) ∉ ([] : List (Nat × Nat)) ∧
      recordAfterStep envRec 0 [] [] [] =
        ([⟨0, (instOp envRec 0 0).1, envRec.current_time_step - (instOp envRec 0 0).2,
            envRec.current_time_step, 0⟩], [(0, 0)], [])) := by
  have hstep : episodeStep stepA
      { env := envA, agent := stA, schedule := [], recorded := [],
        caa := [], total_reward := 0 } =
      .ok ({ env := envRec, agent := stAafter,
             schedule := [⟨0, 0, 0, 2, 0⟩], recorded := [(0, 0)],
             caa := [], total_reward := 1 }, true) := by
    simp only [episodeStep, controllerCall_envA_eval]
    norm_num [validateAction, preStepRecord, recordAfterStep, stepA, envA, stA,
      stAafter, envRec, dictLookup, dictInsert, dictErase, todoAt, numOps,
      instOp, legalAt, machineAvail, getEarliestAvailablePerson, qualifiedAvail,
      minByD, List.find?_cons, List.find?_nil, List.filter_cons,
      List.filter_nil, List.filterMap_cons, List.filterMap_nil,
      List.getD_cons_zero, List.getD_cons_succ, max_def]
  have hrun : runEpisode stepA envA stA =
      .ok (2, 1, [⟨0, 0, 0, 2, 0⟩], [(0, 0)]) := by
    have hfuel : envA.jobs * envA.machines * 10 = 9 + 1 := by norm_num [envA]
    unfold runEpisode
    rw [hfuel]
    simp only [runEpisodeAux, hstep]
    norm_num [Except.map, envRec, envA]
  have h1 : 0 < envRec.jobs := by norm_num [envRec, envA]
  have h2 : dictLookup ([] : List (Nat × ActionAssignment)) 0 = none := rfl
  have h3 : todoAt envRec 0 = 0 + 1 := by norm_num [todoAt, envRec, envA]
  have h4 : (0, 0) ∉ ([] : List (Nat × Nat)) := by simp
  exact ⟨⟨hrun, claim8_schedule_uniqueness_and_recovery.1 stepA envA stA
      2 1 [⟨0, 0, 0, 2, 0⟩] [(0, 0)] hrun⟩,
    h1, h2, h3, h4,
    claim8_schedule_uniqueness_and_recovery.2 envRec 0 [] [] [] 0 h1 h2 h3 h4⟩

/-- C9: with legal jobs present at a well-masked decision point, the hybrid
agent returns no-op exactly when no-op is legal, the progress ratio is
below 0.3 and the random draw falls under the fixed 5% probability; and
with the stochastic exception excluded (draw at or above 0.05) the returned
action does not depend on the draw at all, so repeated runs on the same
snapshot coincide. -/
theorem claim9_stochastic_noop_and_determinism :
    (∀ (env : Env) (r : ℚ) (a : Nat),
      env.action_mask.length = env.jobs + 1 →
      (∃ i, i < env.jobs ∧ legalAt env i = true) →
      hybridCall env r = some a →
      (a = env.jobs ↔
        (legalAt env env.jobs = true ∧ hybridProgress env < 3 / 10 ∧ r < 1 / 20)))
    ∧ (∀ (env : Env) (r r' : ℚ),
      ¬ r < 1 / 20 → ¬ r' < 1 / 20 →
      hybridCall env r = hybridCall env r') := by
  constructor
  · intro env r a hmask hlegj hcall
    obtain ⟨i, hi, hleg⟩ := hlegj
    have hlen : i < env.action_mask.length := by omega
    have hget : env.action_mask[i] = true := by
      unfold legalAt at hleg
      rw [List.getD_eq_getElem _ _ hlen] at hleg
      exact hleg
    simp only [hybridCall] at hcall
    have hb1 : ¬ ((env.action_mask.dropLast.all (fun b => !b) &&
        env.action_mask.getLastD false) = true) := by
      intro hall
      have hlen2 : i < env.action_mask.dropLast.length := by
        rw [List.length_dropLast]
        omega
      have hmem : (true : Bool) ∈ env.action_mask.dropLast := by
        have hdl : env.action_mask.dropLast[i] = true := by
          rw [List.getElem_dropLast]
          exact hget
        exact hdl ▸ List.getElem_mem hlen2
      have hallmem := List.all_eq_true.mp ((Bool.and_eq_true _ _ ▸ hall).1)
        true hmem
      simp at hallmem
    rw [if_neg hb1] at hcall
    have hb2 : ¬ (((List.range env.jobs).filter (fun i => legalAt env i)).isEmpty
        = true) := by
      intro hempty
      have hmem : i ∈ (List.range env.jobs).filter (fun i => legalAt env i) :=
        List.mem_filter.mpr ⟨List.mem_range.mpr hi, hleg⟩
      rw [List.isEmpty_iff.mp hempty] at hmem
      simp at hmem
    rw [if_neg hb2] at hcall
    obtain ⟨scored, hsc, hk⟩ := Option.bind_eq_some.mp hcall
    by_cases h3 : (legalAt env env.jobs &&
        decide (hybridProgress env < 3 / 10) && decide (r < 1 / 20)) = true
    · rw [if_pos h3] at hk
      injection hk with hk
      subst hk
      have h3' := h3
      rw [Bool.and_eq_true, Bool.and_eq_true] at h3'
      exact ⟨fun _ => ⟨h3'.1.1, of_decide_eq_true h3'.1.2, of_decide_eq_true h3'.2⟩,
        fun _ => rfl⟩
    · rw [if_neg h3] at hk
      injection hk with hk
      subst hk
      constructor
      · intro heq
        exfalso
        have hmem := mapM_pair_mem _ _ scored hsc _
          (maxByD_mem (fun p => p.2) scored (0, 0)
            (mapM_pair_ne_nil _ _ scored
              (fun h => hb2 (by rw [h]; rfl)) hsc))
        have hlt := List.mem_range.mp (List.mem_filter.mp hmem).1
        omega
      · intro ⟨hno, hpr, hr⟩
        exact absurd (by
          rw [Bool.and_eq_true, Bool.and_eq_true]
          exact ⟨⟨hno, decide_eq_true hpr⟩, decide_eq_true hr⟩) h3
  · intro env r r' hr hr'
    simp only [hybridCall, decide_eq_false hr, decide_eq_false hr',
      Bool.and_false]

/-- Witness for C9 on `envA`: with draw 1/100 the stochastic exception fires
and the hybrid agent returns the no-op index 1; with draws 1/2 and 3/4
(both outside the 5% band) the calls coincide. -/
theorem claim9_witness :
    (envA.action_mask.length = envA.jobs + 1 ∧
      (∃ i, i < envA.jobs ∧ legalAt envA i = true) ∧
      hybridCall envA (1 / 100) = some 1 ∧
      (1 = envA.jobs ↔
        (legalAt envA envA.jobs = true ∧ hybridProgress envA < 3 / 10 ∧
          (1 : ℚ) / 100 < 1 / 20))) ∧
    (¬ (1 : ℚ) / 2 < 1 / 20 ∧ ¬ (3 : ℚ) / 4 < 1 / 20 ∧
      hybridCall envA (1 / 2) = hybridCall envA (3 / 4)) := by
  have h1 : envA.action_mask.length = envA.jobs + 1 := by norm_num [envA]
  have h2 : ∃ i, i < envA.jobs ∧ legalAt envA i = true :=
    ⟨0, by norm_num [envA], by norm_num [legalAt, envA]⟩
  have hh : hybridCall envA (1 / 100) = some 1 := by
    norm_num [hybridCall, envA, hybridProgress, hybridJobScore,
      shortestProcessingTimeScore, workRemainingScore, criticalPathScore,
      machineUtilizationScore, bottleneckMachineScore, flowContinuityScore,
      hybridDynamicWeights, legalAt, todoAt, numOps, instOp, neededAt,
      machineAvail, noopFallback, maxByD, List.range_succ, List.range_zero,
      List.filter_cons, List.filter_nil, List.foldl_cons, List.foldl_nil,
      List.getD_cons_zero, List.getD_cons_succ, List.mapM_cons, List.mapM_nil,
      List.mapM.loop, List.reverse_cons, List.reverse_nil, Option.some_bind,
      max_def]
  have hr : ¬ (1 : ℚ) / 2 < 1 / 20 := by norm_num
  have hr' : ¬ (3 : ℚ) / 4 < 1 / 20 := by norm_num
  exact ⟨⟨h1, h2, hh,
      claim9_stochastic_noop_and_determinism.1 envA (1 / 100) 1 h1 h2 hh⟩,
    hr, hr', claim9_stochastic_noop_and_determinism.2 envA (1 / 2) (3 / 4) hr hr'⟩

end JSSVerif
